import Mathlib

/-!
Verification of the Airlock deployment pipeline (backend/app) against its
natural-language specification.

The development shallowly embeds the relevant parts of the source:
 - services/zip_handler.py : archive validation and extraction
 - plugin_runner.py        : the plugin line protocol
 - services/ai_analyzer.py : the concurrent check orchestration
 - routers/upload.py       : record creation
 - routers/deployments.py  : the deploy state transition
 - services/cleanup.py     : the lifecycle scheduler cycle

File-system effects are modelled as explicit lists of path components,
database effects as explicit update traces, and fallible external calls
as `Except` values.
-/

namespace Airlock

/-! ## String primitives

Python string operations are modelled by structural recursion on the
character list of a `String`, so that every definition evaluates by kernel
reduction. -/

/-- Python `str.split(sep)` for a one-character separator: always returns at
least one (possibly empty) group. -/
def splitOnChar (sep : Char) : List Char → List (List Char)
  | [] => [[]]
  | c :: cs =>
    let r := splitOnChar sep cs
    if c = sep then [] :: r
    else
      match r with
      | [] => [[c]]
      | g :: gs => (c :: g) :: gs

/-- Python `str.startswith`. -/
def strStartsWith (s pre : String) : Bool := pre.data.isPrefixOf s.data

/-- Python `str.endswith`. -/
def strEndsWith (s suf : String) : Bool := suf.data.isSuffixOf s.data

/-- Python `str.lower` (ASCII case folding suffices for the extension
allow-list). -/
def strToLower (s : String) : String := String.mk (s.data.map Char.toLower)

/-! ## Archive validator: model of services/zip_handler.py -/

/-- The extension allow-list of zip_handler.py (`ALLOWED_EXTENSIONS`). -/
def ALLOWED_EXTENSIONS : List String :=
  [".html", ".htm", ".css", ".js", ".json", ".txt", ".md",
   ".png", ".jpg", ".jpeg", ".gif", ".svg", ".ico", ".webp",
   ".woff", ".woff2", ".ttf", ".eot", ".otf",
   ".xml", ".webmanifest", ".map", ".pdf"]

/-- `MAX_ZIP_SIZE = 50 * 1024 * 1024`. -/
def MAX_ZIP_SIZE : Nat := 50 * 1024 * 1024

/-- `MAX_EXTRACTED_SIZE = 100 * 1024 * 1024`. -/
def MAX_EXTRACTED_SIZE : Nat := 100 * 1024 * 1024

/-- One archive member, as read from `zf.infolist()`: its raw name and its
uncompressed size (`info.file_size`). -/
structure ZipEntry where
  filename : String
  fileSize : Nat
deriving Repr, DecidableEq

/-- `ZipInfo.is_dir()`: a member is a directory entry iff its name ends in a
slash. -/
def isDirEntry (e : ZipEntry) : Bool := strEndsWith e.filename "/"

/-- The non-root components of a member name, as in Python
`Path(filename).parts` with the root part (present exactly when the name is
absolute) set aside: split on slashes, dropping empty segments and bare-dot
segments (pathlib normalises those away).  Absolute names are detected
separately by `isAbsEntry`, because `dest_dir / filename` resets to the
absolute path and such members are written outside the destination tree. -/
def pathParts (f : String) : List String :=
  ((splitOnChar '/' f.data).map String.mk).filter (fun s => s != "" && s != ".")

/-- Whether `Path(filename)` is absolute (POSIX: the name starts with a
slash), in which case `dest_dir / filename` escapes the destination. -/
def isAbsEntry (e : ZipEntry) : Bool := strStartsWith e.filename "/"

/-- Python `Path(filename).name`: the final path component (empty for an
empty path). -/
def pathName (f : String) : String := (pathParts f).getLastD ""

/-- Index of the last dot in a character list, if any. -/
def lastDotIdx : List Char → Option Nat
  | [] => none
  | c :: cs =>
    match lastDotIdx cs with
    | some k => some (k + 1)
    | none => if c = '.' then some 0 else none

/-- Python `Path(name).suffix` on a file name: the last dot-suffix, and empty
when the name has no dot, when the only dot is the leading character, or when
the dot is the final character (CPython: `0 < i < len(name) - 1`). -/
def pathSuffix (name : String) : String :=
  let cs := name.data
  match lastDotIdx cs with
  | some i => if 0 < i ∧ i < cs.length - 1 then String.mk (cs.drop i) else ""
  | none => ""

/-- `member_path.suffix.lower()` for an entry. -/
def entryExt (e : ZipEntry) : String := strToLower (pathSuffix (pathName e.filename))

/-- The skip conditions of both passes of `validate_and_extract`: directory
entries, macOS metadata under `__MACOSX/`, and hidden dot-files. -/
def isSkipped (e : ZipEntry) : Bool :=
  isDirEntry e || strStartsWith e.filename "__MACOSX/" || strStartsWith (pathName e.filename) "."

/-- The `".." in member_path.parts` traversal test. -/
def hasTraversal (e : ZipEntry) : Bool := (pathParts e.filename).contains ".."

/-- One step of the scan pass (the first loop of `validate_and_extract`),
threading `(file_count, total_size)` and raising `ZipValidationError` as
`Except.error`. -/
def scanStep (st : Nat × Nat) (e : ZipEntry) : Except String (Nat × Nat) :=
  if isSkipped e then .ok st
  else if hasTraversal e then
    .error ("Path traversal detected: " ++ e.filename)
  else if ¬ ALLOWED_EXTENSIONS.contains (entryExt e) then
    .error ("Disallowed file type: " ++ entryExt e ++ " (" ++ e.filename ++ ")")
  else
    let total := st.2 + e.fileSize
    if total > MAX_EXTRACTED_SIZE then
      .error "Extracted size exceeds 100MB limit"
    else .ok (st.1 + 1, total)

/-- The complete scan pass over `zf.infolist()`, starting from
`file_count = 0, total_size = 0`. -/
def scanEntries (entries : List ZipEntry) : Except String (Nat × Nat) :=
  entries.foldlM scanStep (0, 0)

/-- The destination directory contents, as the list of written files, each a
normalised component path relative to `dest_dir`. -/
abbrev Fs := List (List String)

/-- Python `Path.exists()` relative to the destination: a path exists iff it
is a written file or a directory on the way to one. -/
def fsExists (fs : Fs) (p : List String) : Bool :=
  fs.any (fun q => p.isPrefixOf q)

/-- A destination path that exists as a (necessarily non-empty) directory:
some written file lies strictly below it.  Empty directories never arise,
because directories are created only as parents of written files. -/
def existsDir (fs : Fs) (p : List String) : Bool :=
  fs.any (fun q => p.isPrefixOf q && p.length < q.length)

/-- The ancestor directories created by `target.parent.mkdir(parents=True,
exist_ok=True)`: every non-empty proper prefix of the target path. -/
def ancestorDirs (p : List String) : List (List String) :=
  (List.range (p.length - 1)).map (fun k => p.take (k + 1))

/-- Writing one non-skipped relative member (`zip_handler.py:70-73`):
`mkdir` raises when an ancestor of the target exists as a file, `open`
raises when the target itself is a directory, an existing file at the
target is silently overwritten. -/
def writeOne (fs : Fs) (p : List String) : Except String Fs :=
  if (ancestorDirs p).any (fun q => fs.contains q) then
    .error "NotADirectoryError: a parent of the target is a file"
  else if existsDir fs p then
    .error "IsADirectoryError: the target is a directory"
  else .ok (if fs.contains p then fs else fs ++ [p])

/-- The write pass (the second loop): every non-skipped member is written in
order to `dest_dir / info.filename`.  An absolute member name resets
`dest_dir / filename` to the absolute path, so the write lands outside the
destination tree (assumed to succeed there); a failing write raises at once,
leaving the files written so far in place.  Returns the destination tree and
the error, if one was raised. -/
def writeFold (fs : Fs) : List ZipEntry → Fs × Option String
  | [] => (fs, none)
  | e :: es =>
    if isSkipped e then writeFold fs es
    else if isAbsEntry e then writeFold fs es
    else
      match writeOne fs (pathParts e.filename) with
      | .error msg => (fs, some msg)
      | .ok fs2 => writeFold fs2 es

/-- The direct children of the destination root (`dest_dir.iterdir()`), in
first-written order. -/
def childNames (fs : Fs) : List String := (fs.filterMap List.head?).dedup

/-- `child.is_dir()` for a direct child of the destination root. -/
def isChildDir (fs : Fs) (d : String) : Bool :=
  fs.any (fun q => q.head? = some d && q.length ≥ 2)

/-- The wrapper-folder search: the first direct child that is a directory and
contains `index.html`. -/
def findWrapper (fs : Fs) : Option String :=
  (childNames fs).find? (fun d => isChildDir fs d && fsExists fs [d, "index.html"])

/-- The closed form of a collision-free hoist of the wrapper folder `d`:
every path below `d` is re-rooted one level up. -/
def hoist (fs : Fs) (d : String) : Fs :=
  fs.map (fun q => if q.head? = some d then q.tail else q)

/-- The items directly inside the wrapper folder (`child.iterdir()`), in
first-written order. -/
def childItems (fs : Fs) (d : String) : List String :=
  (fs.filterMap (fun q =>
    match q with
    | a :: b :: _ => if a = d then some b else none
    | _ => none)).dedup

/-- One `item.rename(dest_dir / item.name)` of the hoist loop
(`zip_handler.py:85-86`), with POSIX rename semantics: a file silently
replaces an existing file but cannot replace a directory; a directory cannot
replace an existing file or a non-empty directory (and empty directories do
not occur).  A raised error stops the loop with the tree as it stands. -/
def hoistStep (d : String) (st : Fs × Option String) (b : String) : Fs × Option String :=
  match st with
  | (fs, some e) => (fs, some e)
  | (fs, none) =>
    if fs.contains [d, b] then
      if existsDir fs [b] then (fs, some "IsADirectoryError: rename onto a directory")
      else ((fs.filter (fun q => q ≠ [b])).map (fun q => if q = [d, b] then [b] else q), none)
    else
      if fsExists fs [b] then (fs, some "OSError: rename directory onto existing path")
      else (fs.map (fun q => if ([d, b]).isPrefixOf q then b :: q.drop 2 else q), none)

/-- The hoist loop over the wrapper items. -/
def hoistItems (d : String) (fs : Fs) (bs : List String) : Fs × Option String :=
  bs.foldl (hoistStep d) (fs, none)

/-- Hoisting the contents of wrapper folder `d` one level up, item by item;
the wrapper itself is removed afterwards (`child.rmdir()`). -/
def hoistFold (fs : Fs) (d : String) : Fs × Option String :=
  hoistItems d fs (childItems fs d)

/-- The metadata dict returned by `validate_and_extract`. -/
structure ZipMeta where
  fileCount : Nat
  totalSize : Nat
deriving Repr, DecidableEq

/-- Result of a `validate_and_extract` call: the returned metadata or the
raised `ZipValidationError`, together with the destination directory contents
left behind at that point. -/
structure ExtractOutcome where
  result : Except String ZipMeta
  destFs : Fs
deriving Repr

/-- Model of `validate_and_extract(zip_path, dest_dir)`.  `zipSize` is
`zip_path.stat().st_size` and `isZip` is `zipfile.is_zipfile(zip_path)`.
The scan pass runs to completion before the write pass touches the
destination; the write pass and the hoist loop can themselves raise
(name collisions), in which case the partially written tree is left in
place; the empty-archive check and the entry-point check run after the
write pass. -/
def validate_and_extract (zipSize : Nat) (isZip : Bool) (entries : List ZipEntry) :
    ExtractOutcome :=
  if zipSize > MAX_ZIP_SIZE then ⟨.error "ZIP file exceeds 50MB limit", []⟩
  else if ¬ isZip then ⟨.error "File is not a valid ZIP archive", []⟩
  else
    match scanEntries entries with
    | .error e => ⟨.error e, []⟩
    | .ok (fc, total) =>
      match writeFold [] entries with
      | (wfs, some msg) => ⟨.error msg, wfs⟩
      | (wfs, none) =>
        if fc = 0 then ⟨.error "ZIP archive is empty", wfs⟩
        else if fsExists wfs ["index.html"] then ⟨.ok ⟨fc, total⟩, wfs⟩
        else
          match findWrapper wfs with
          | some d =>
            match hoistFold wfs d with
            | (hfs, some msg) => ⟨.error msg, hfs⟩
            | (hfs, none) => ⟨.ok ⟨fc, total⟩, hfs⟩
          | none => ⟨.error "No index.html found in ZIP root (or first subfolder)", wfs⟩

/-! ## Plugin protocol runner: model of plugin_runner.py -/

/-- A parsed JSON value, as returned by `json.loads` on one output line. -/
inductive Json where
  | null
  | bool (b : Bool)
  | num (n : Int)
  | str (s : String)
  | arr (elems : List Json)
  | obj (fields : List (String × Json))

/-- Python `dict.get` on the fields of a JSON object (keys are distinct after
parsing): `none` models Python `None` for a missing key. -/
def jsonGet (fields : List (String × Json)) (k : String) : Option Json :=
  (fields.find? (fun kv => kv.1 == k)).map (fun kv => kv.2)

/-- One line read from the child process stdout: stripped-empty, not valid
JSON, or parsed to a JSON value. -/
inductive OutLine where
  | blank
  | nonJson (raw : String)
  | parsed (j : Json)

/-- One iteration of the stdout read loop of `_run_single_plugin`, threading
`plugin_result`.  A blank line is skipped; a `json.JSONDecodeError` is logged
and skipped; a parsed object dispatches on its `type` field (`log` and
unknown types only log; `result` overwrites `plugin_result` with the payload
of its `result` field); a parsed non-object raises `AttributeError` at
`payload.get`, which nothing in the function catches. -/
def lineStep (st : Option Json) (l : OutLine) : Except String (Option Json) :=
  match l with
  | .blank => .ok st
  | .nonJson _ => .ok st
  | .parsed j =>
    match j with
    | .obj fields =>
      match jsonGet fields "type" with
      | some (Json.str "log") => .ok st
      | some (Json.str "result") => .ok (jsonGet fields "result")
      | _ => .ok st
    | _ => .error "AttributeError: payload has no attribute get"

/-- The whole stdout read loop, from `plugin_result = None`. -/
def processOutput (lines : List OutLine) : Except String (Option Json) :=
  lines.foldlM lineStep none

/-- What one `_run_single_plugin` call leaves behind: its return value (or
the exception that escaped it) and whether the private working-directory copy
was deleted.  `shutil.rmtree(deploy_dir_for_plugin)` is the last statement of
the function and is not inside a `try/finally`, so it runs exactly when the
read loop finishes without raising. -/
structure PluginRun where
  result : Except String (Option Json)
  copyDeleted : Bool

/-- Model of `_run_single_plugin`: the child exit code is observed for
logging only. -/
def runSinglePlugin (exitCode : Int) (lines : List OutLine) : PluginRun :=
  match exitCode, processOutput lines with
  | _, .ok r => ⟨.ok r, true⟩
  | _, .error e => ⟨.error e, false⟩

/-- A well-formed `log` message line. -/
def logLine (msg : String) : OutLine :=
  .parsed (.obj [("type", .str "log"), ("msg", .str msg)])

/-- A well-formed `result` message line carrying payload `r`. -/
def resultLine (r : Json) : OutLine :=
  .parsed (.obj [("type", .str "result"), ("result", r)])

/-- Model of `run_plugins`: one invocation per configured plugin, collecting
`(name, result)` pairs and skipping plugins whose invocation returned no
result (that is not an error). -/
def run_plugins (plugins : List (String × Int × List OutLine)) :
    Except String (List (String × Json)) :=
  plugins.foldlM
    (fun acc p =>
      match (runSinglePlugin p.2.1 p.2.2).result with
      | .error e => .error e
      | .ok none => .ok acc
      | .ok (some r) => .ok (acc ++ [(p.1, r)]))
    []

/-! ## Check orchestration: model of services/ai_analyzer.py

Each check body runs inside a `try` that catches every exception; the
external evaluation (the Claude call plus the `CheckResult(**result)`
construction) is modelled as an `Except String CheckResult` value. -/

/-- `CheckResult` of models.py. -/
structure CheckResult where
  status : String
  summary : String
  details : List String
deriving Repr, DecidableEq

/-- `_warn_result` of ai_analyzer.py. -/
def _warn_result (error : String) : CheckResult :=
  ⟨"warn", "Check could not complete: " ++ error,
   ["AI analysis unavailable — defaulting to warn"]⟩

/-- `run_security_check`: warn without the API key, pass with no text files,
otherwise the external evaluation with every exception degraded to warn. -/
def run_security_check (apiKeySet : Bool) (textFiles : List String)
    (claude : Except String CheckResult) : CheckResult :=
  if ¬ apiKeySet then _warn_result "run security check"
  else if textFiles.isEmpty then ⟨"pass", "No text files to analyze", []⟩
  else
    match claude with
    | .ok r => r
    | .error e => _warn_result e

/-- `run_cost_check`: like the security check but with no no-files early
return (it sends metadata, not file contents). -/
def run_cost_check (apiKeySet : Bool) (claude : Except String CheckResult) : CheckResult :=
  if ¬ apiKeySet then _warn_result "run cost check"
  else
    match claude with
    | .ok r => r
    | .error e => _warn_result e

/-- `run_brand_check` (the partner page fetch is already folded into the
external evaluation). -/
def run_brand_check (apiKeySet : Bool) (textFiles : List String)
    (claude : Except String CheckResult) : CheckResult :=
  if ¬ apiKeySet then _warn_result "run brand check"
  else if textFiles.isEmpty then ⟨"pass", "No text files to analyze", []⟩
  else
    match claude with
    | .ok r => r
    | .error e => _warn_result e

/-- The dict returned by `run_all_checks`. -/
structure AllChecks where
  security : CheckResult
  cost : CheckResult
  brand : CheckResult
deriving Repr, DecidableEq

/-- `run_all_checks`: the three domains evaluated independently
(`asyncio.gather`) against the same directory. -/
def run_all_checks (apiKeySet : Bool) (textFiles : List String)
    (secCall costCall brandCall : Except String CheckResult) : AllChecks :=
  ⟨run_security_check apiKeySet textFiles secCall,
   run_cost_check apiKeySet costCall,
   run_brand_check apiKeySet textFiles brandCall⟩

/-! ## Deployment record store

One row of the `deployments` table (models.py `Deployment`).  ISO timestamps
are modelled as naturals ordered as the strings are; the per-domain detail
blobs are kept as the (summary, details) pair that upload.py serialises. -/

structure DeploymentRow where
  id : String
  name : String
  status : String
  mode : Option String
  fileCount : Nat
  totalSize : Nat
  securityStatus : Option String
  securityDetails : Option (String × List String)
  costStatus : Option String
  costDetails : Option (String × List String)
  brandStatus : Option String
  brandDetails : Option (String × List String)
  cloudRunUrl : Option String
  createdAt : Nat
  deployedAt : Option Nat
  expiresAt : Option Nat
deriving Repr, DecidableEq

/-- The row inserted by `upload_zip` (routers/upload.py) once validation and
the check phase have completed: status `checked`, all three domain outcomes
recorded, no mode, url or timestamps yet. -/
def insertedRow (id name : String) (meta : ZipMeta) (checks : AllChecks) (now : Nat) :
    DeploymentRow where
  id := id
  name := name
  status := "checked"
  mode := none
  fileCount := meta.fileCount
  totalSize := meta.totalSize
  securityStatus := some checks.security.status
  securityDetails := some (checks.security.summary, checks.security.details)
  costStatus := some checks.cost.status
  costDetails := some (checks.cost.summary, checks.cost.details)
  brandStatus := some checks.brand.status
  brandDetails := some (checks.brand.summary, checks.brand.details)
  cloudRunUrl := none
  createdAt := now
  deployedAt := none
  expiresAt := none

/-! ## Deploy operation: model of routers/deployments.py -/

/-- `DeployRequest` of models.py. -/
structure DeployRequest where
  mode : String
deriving Repr, DecidableEq

/-- A raised `HTTPException`. -/
structure HTTPException where
  statusCode : Nat
  detail : String
deriving Repr, DecidableEq

/-- `DeployResponse` of models.py. -/
structure DeployResponse where
  deploymentId : String
  cloudRunUrl : String
  mode : String
  expiresAt : Option Nat
deriving Repr, DecidableEq

/-- One `UPDATE deployments ... WHERE id = ?` statement issued by the deploy
handler, in issue order. -/
inductive DBUpdate where
  | setDeploying (mode : String)
  | setFailed
  | setDeployed (url : String) (deployedAt : Nat) (expiresAt : Option Nat)
deriving Repr, DecidableEq

/-- What one deploy call produces: the HTTP response or raised exception,
and the trace of database updates it issued. -/
structure DeployOutcome where
  response : Except HTTPException DeployResponse
  updates : List DBUpdate
deriving Repr

/-- Model of the `deploy` handler.  `row?` is the fetched row; `dirExists`
is `(settings.deployments_dir / deployment_id).exists()`; `enableDeploy` is
`settings.enable_deploy`; `buildRes` and `applyRes` are the outcomes of
`build_and_push` and of `terraform_apply` on the built image; `now` is the
wall clock at success and `ttl` is `settings.demo_ttl_seconds`.  Quotation
marks inside the original detail strings are elided. -/
def deploy (row? : Option DeploymentRow) (req : DeployRequest)
    (dirExists enableDeploy : Bool) (buildRes applyRes : Except String String)
    (now ttl : Nat) : DeployOutcome :=
  match row? with
  | none => ⟨.error ⟨404, "Deployment not found"⟩, []⟩
  | some row =>
    if row.status ≠ "checked" ∧ row.status ≠ "deployed" then
      ⟨.error ⟨400, "Cannot deploy: status is " ++ row.status⟩, []⟩
    else if row.securityStatus = some "fail" then
      ⟨.error ⟨403, "Deployment blocked: security scan failed. Fix security issues and re-upload."⟩, []⟩
    else if req.mode ≠ "demo" ∧ req.mode ≠ "prod" then
      ⟨.error ⟨400, "Mode must be demo or prod"⟩, []⟩
    else if ¬ dirExists then
      ⟨.error ⟨404, "Deployment files not found"⟩, []⟩
    else
      match (if enableDeploy then buildRes.bind (fun _ => applyRes) else .ok "fake url") with
      | .error e => ⟨.error ⟨500, e⟩, [.setDeploying req.mode, .setFailed]⟩
      | .ok url =>
        let expiresAt : Option Nat := if req.mode = "demo" then some (now + ttl) else none
        ⟨.ok ⟨row.id, url, req.mode, expiresAt⟩,
         [.setDeploying req.mode, .setDeployed url now expiresAt]⟩

/-- Effect of one update statement on the row it matches. -/
def applyUpdate (r : DeploymentRow) : DBUpdate → DeploymentRow
  | .setDeploying m => { r with status := "deploying", mode := some m }
  | .setFailed => { r with status := "failed" }
  | .setDeployed url t exp =>
    { r with status := "deployed", cloudRunUrl := some url,
             deployedAt := some t, expiresAt := exp }

/-- An `UPDATE ... WHERE id = ?` applied to the whole table. -/
def updateById (db : List DeploymentRow) (id : String) (u : DBUpdate) :
    List DeploymentRow :=
  db.map (fun r => if r.id = id then applyUpdate r u else r)

/-! ## Lifecycle scheduler: model of services/cleanup.py -/

/-- The selection predicate of the cleanup query:
`expires_at IS NOT NULL AND expires_at < now AND status = 'deployed'`. -/
def rowExpired (now : Nat) (r : DeploymentRow) : Bool :=
  (match r.expiresAt with
   | some t => decide (t < now)
   | none => false) && r.status == "deployed"

/-- The ids selected by the cleanup query. -/
def expiredIds (now : Nat) (db : List DeploymentRow) : List String :=
  (db.filter (rowExpired now)).map (fun r => r.id)

/-- The `UPDATE ... SET status = 'expired'` of the cleanup loop body. -/
def expireRow (r : DeploymentRow) : DeploymentRow := { r with status := "expired" }

/-- `terraform_destroy` wrapped in the `try/except` of `cleanup_expired`: a
raised exception is logged and swallowed. -/
def tryDestroy (throws : Bool) : Unit :=
  match (if throws then (Except.error "Terraform destroy failed" : Except String Unit)
         else .ok ()) with
  | .ok _ => ()
  | .error _ => ()

/-- The loop body of `cleanup_expired` for one selected id: best-effort
destroy, remove the backing directory if present, mark the row expired.
`dirs` is the set of ids whose `deployments_dir / id` exists. -/
def cleanupStep (destroyThrows : String → Bool)
    (st : List DeploymentRow × List String) (id : String) :
    List DeploymentRow × List String :=
  let _ := tryDestroy (destroyThrows id)
  (st.1.map (fun r => if r.id = id then expireRow r else r),
   st.2.filter (fun d => d != id))

/-- One cycle of the lifecycle scheduler (`cleanup_expired`). -/
def cleanup_expired (now : Nat) (destroyThrows : String → Bool)
    (db : List DeploymentRow) (dirs : List String) :
    List DeploymentRow × List String :=
  (expiredIds now db).foldl (cleanupStep destroyThrows) (db, dirs)

/-! ## System steps

The operations that mutate the deployments table, for the store-level
invariant that a record whose security outcome is `fail` never reaches
status `deployed`. -/

inductive SystemOp where
  | uploadOp (id name : String) (meta : ZipMeta) (checks : AllChecks) (now : Nat)
  | deployOp (id : String) (req : DeployRequest) (dirExists enableDeploy : Bool)
      (buildRes applyRes : Except String String) (now ttl : Nat)
  | cleanupOp (now : Nat) (destroyThrows : String → Bool)
  | deleteOp (id : String)

/-- Effect of one operation on the deployments table.  The upload insert is
guarded by the primary-key constraint on `id`; the deploy handler applies
each update of its trace by id; delete removes the row after best-effort
teardown. -/
def applyOp (db : List DeploymentRow) : SystemOp → List DeploymentRow
  | .uploadOp id name meta checks now =>
    if db.any (fun r => r.id == id) then db
    else db ++ [insertedRow id name meta checks now]
  | .deployOp id req dirE en b a now ttl =>
    let out := deploy (db.find? (fun r => r.id == id)) req dirE en b a now ttl
    out.updates.foldl (fun d u => updateById d id u) db
  | .cleanupOp now dt => (cleanup_expired now dt db []).1
  | .deleteOp id => db.filter (fun r => r.id != id)

/-- Ids are unique in the table (the primary-key invariant). -/
def UniqueIds (db : List DeploymentRow) : Prop :=
  ∀ r1 ∈ db, ∀ r2 ∈ db, r1.id = r2.id → r1 = r2

/-- No row with a failed security outcome is in status `deployed`. -/
def SecInv (db : List DeploymentRow) : Prop :=
  ∀ r ∈ db, r.securityStatus = some "fail" → r.status ≠ "deployed"

/-! ## Theorems: plugin line protocol -/

/-- A non-JSON line anywhere in the stream is skipped. -/
theorem foldl_lineStep_nonJson (l1 : List OutLine) :
    ∀ (st : Option Json) (s : String) (l2 : List OutLine),
      List.foldlM lineStep st (l1 ++ OutLine.nonJson s :: l2) =
        List.foldlM lineStep st (l1 ++ l2) := by
  induction l1 with
  | nil => intro st s l2; rfl
  | cons a l ih =>
    intro st s l2
    simp only [List.cons_append, List.foldlM_cons]
    cases lineStep st a with
    | error e => rfl
    | ok st2 => exact ih st2 s l2

/-- A stream of log messages leaves the captured result unchanged. -/
theorem foldl_lineStep_logs (msgs : List String) :
    ∀ st : Option Json, List.foldlM lineStep st (msgs.map logLine) = .ok st := by
  induction msgs with
  | nil => intro st; rfl
  | cons m l ih => intro st; exact ih st

/-- Appending a result message overwrites whatever result was captured. -/
theorem foldl_lineStep_result (lines : List OutLine) :
    ∀ (st : Option Json) (r : Json),
      List.foldlM lineStep st (lines ++ [resultLine r]) =
        (List.foldlM lineStep st lines).map (fun _ => some r) := by
  induction lines with
  | nil => intro st r; rfl
  | cons a l ih =>
    intro st r
    simp only [List.cons_append, List.foldlM_cons]
    cases lineStep st a with
    | error e => rfl
    | ok st2 => exact ih st2 r

/-- C3: a `result` line sets the captured result; a line that is not valid
JSON is discarded without affecting the invocation; one log line followed by
one result line yields exactly that one result and no error; only log lines,
or no output at all, yield no result and no error, and the working copy is
still cleaned up. -/
theorem plugin_line_protocol :
    (∀ (st : Option Json) (r : Json), lineStep st (resultLine r) = .ok (some r)) ∧
    (∀ (l1 l2 : List OutLine) (s : String),
       processOutput (l1 ++ OutLine.nonJson s :: l2) = processOutput (l1 ++ l2)) ∧
    (∀ (ec : Int) (m : String) (r : Json),
       runSinglePlugin ec [logLine m, resultLine r] = ⟨.ok (some r), true⟩) ∧
    (∀ (ec : Int) (msgs : List String),
       runSinglePlugin ec (msgs.map logLine) = ⟨.ok none, true⟩) ∧
    (∀ ec : Int, runSinglePlugin ec [] = ⟨.ok none, true⟩) := by
  refine ⟨fun st r => rfl, ?_, fun ec m r => rfl, ?_, fun ec => rfl⟩
  · intro l1 l2 s
    exact foldl_lineStep_nonJson l1 none s l2
  · intro ec msgs
    simp only [runSinglePlugin, processOutput, foldl_lineStep_logs]

/-- C9: when the child emits several valid result messages, each later one
overwrites the earlier one, so the captured result is the payload of the
last result line. -/
theorem plugin_last_result_wins :
    (∀ (lines : List OutLine) (r : Json),
       processOutput (lines ++ [resultLine r]) =
         (processOutput lines).map (fun _ => some r)) ∧
    (∀ (ec : Int) (r1 r2 : Json),
       runSinglePlugin ec [resultLine r1, resultLine r2] = ⟨.ok (some r2), true⟩) := by
  exact ⟨fun lines r => foldl_lineStep_result lines none r, fun ec r1 r2 => rfl⟩

/-- C8 (code bug): a child output line holding valid JSON that is not an
object (here the line `42`) raises `AttributeError` inside the read loop;
`shutil.rmtree` is after the loop and not in a `finally`, so the private
working-directory copy is not deleted for that invocation, contradicting the
unconditional-cleanup claim. -/
theorem plugin_copy_leaked_on_scalar_line :
    (runSinglePlugin 0 [OutLine.parsed (Json.num 42)]).copyDeleted = false ∧
    (runSinglePlugin 0 [OutLine.parsed (Json.num 42)]).result =
      .error "AttributeError: payload has no attribute get" :=
  ⟨rfl, rfl⟩

/-! ## Theorems: check orchestration -/

/-- C4: when the external evaluation of any one domain raises, that domain
is recorded as `warn` with an explanatory detail (never `pass`, never a
propagated exception), the other domains still complete with their own
outcomes, and the inserted record carries all three domain outcomes with
status `checked`. -/
theorem check_domain_error_degrades_to_warn :
    ∀ (textFiles : List String) (sec cost brand : Except String CheckResult)
      (id name : String) (meta : ZipMeta) (now : Nat),
      textFiles ≠ [] →
      (∀ e, sec = .error e →
         (run_all_checks true textFiles sec cost brand).security.status = "warn" ∧
         (run_all_checks true textFiles sec cost brand).security.status ≠ "pass" ∧
         (run_all_checks true textFiles sec cost brand).security.details ≠ []) ∧
      (∀ e, cost = .error e →
         (run_all_checks true textFiles sec cost brand).cost.status = "warn" ∧
         (run_all_checks true textFiles sec cost brand).cost.status ≠ "pass" ∧
         (run_all_checks true textFiles sec cost brand).cost.details ≠ []) ∧
      (∀ e, brand = .error e →
         (run_all_checks true textFiles sec cost brand).brand.status = "warn" ∧
         (run_all_checks true textFiles sec cost brand).brand.status ≠ "pass" ∧
         (run_all_checks true textFiles sec cost brand).brand.details ≠ []) ∧
      ((run_all_checks true textFiles sec cost brand).security =
         run_security_check true textFiles sec ∧
       (run_all_checks true textFiles sec cost brand).cost =
         run_cost_check true cost ∧
       (run_all_checks true textFiles sec cost brand).brand =
         run_brand_check true textFiles brand) ∧
      ((insertedRow id name meta (run_all_checks true textFiles sec cost brand) now).status
         = "checked" ∧
       (insertedRow id name meta (run_all_checks true textFiles sec cost brand) now).securityStatus
         = some (run_all_checks true textFiles sec cost brand).security.status ∧
       (insertedRow id name meta (run_all_checks true textFiles sec cost brand) now).costStatus
         = some (run_all_checks true textFiles sec cost brand).cost.status ∧
       (insertedRow id name meta (run_all_checks true textFiles sec cost brand) now).brandStatus
         = some (run_all_checks true textFiles sec cost brand).brand.status) := by
  intro textFiles sec cost brand id name meta now hne
  cases textFiles with
  | nil => exact absurd rfl hne
  | cons a l =>
    refine ⟨?_, ?_, ?_, ⟨rfl, rfl, rfl⟩, rfl, rfl, rfl, rfl⟩

    · intro e he
      subst he
      refine ⟨rfl, ?_, ?_⟩
      · show ("warn" : String) ≠ "pass"
        decide
      · show ["AI analysis unavailable — defaulting to warn"] ≠ ([] : List String)
        simp
    · intro e he
      subst he
      refine ⟨rfl, ?_, ?_⟩
      · show ("warn" : String) ≠ "pass"
        decide
      · show ["AI analysis unavailable — defaulting to warn"] ≠ ([] : List String)
        simp
    · intro e he
      subst he
      refine ⟨rfl, ?_, ?_⟩
      · show ("warn" : String) ≠ "pass"
        decide
      · show ["AI analysis unavailable — defaulting to warn"] ≠ ([] : List String)
        simp

/-- Witness for the check-orchestration theorem: one upload with text files
where the cost evaluation raises. -/
theorem check_domain_error_degrades_to_warn_witness :
    (run_all_checks true ["index.html"]
      (.ok ⟨"pass", "ok", []⟩) (.error "boom") (.ok ⟨"pass", "ok", []⟩)).cost.status = "warn" ∧
    (run_all_checks true ["index.html"]
      (.ok ⟨"pass", "ok", []⟩) (.error "boom") (.ok ⟨"pass", "ok", []⟩)).security.status = "pass" ∧
    (insertedRow "d1" "site" ⟨1, 5⟩
      (run_all_checks true ["index.html"]
        (.ok ⟨"pass", "ok", []⟩) (.error "boom") (.ok ⟨"pass", "ok", []⟩)) 7).status = "checked" := by
  have h := check_domain_error_degrades_to_warn ["index.html"]
    (.ok ⟨"pass", "ok", []⟩) (.error "boom") (.ok ⟨"pass", "ok", []⟩)
    "d1" "site" ⟨1, 5⟩ 7 (by simp)
  exact ⟨(h.2.1 "boom" rfl).1, rfl, h.2.2.2.2.1⟩

/-! ## Theorems: deploy operation -/

/-- C6: a successful deploy issues exactly the `deploying` update followed by
the single update that records status `deployed`; `expires_at` is written
only inside that second update, equals now + TTL exactly when the requested
mode is `demo`, and stays null for `prod` mode. -/
theorem deploy_expiry_policy :
    ∀ (row : DeploymentRow) (req : DeployRequest) (dirE en : Bool)
      (b a : Except String String) (now ttl : Nat) (resp : DeployResponse),
      (deploy (some row) req dirE en b a now ttl).response = .ok resp →
      (deploy (some row) req dirE en b a now ttl).updates =
        [.setDeploying req.mode, .setDeployed resp.cloudRunUrl now resp.expiresAt] ∧
      resp.expiresAt = (if req.mode = "demo" then some (now + ttl) else none) ∧
      (resp.expiresAt ≠ none ↔ req.mode = "demo") ∧
      (req.mode = "prod" → resp.expiresAt = none) ∧
      ((deploy (some row) req dirE en b a now ttl).updates.foldl applyUpdate row).status
        = "deployed" ∧
      ((deploy (some row) req dirE en b a now ttl).updates.foldl applyUpdate row).expiresAt
        = resp.expiresAt := by
  intro row req dirE en b a now ttl resp
  simp only [deploy]
  split
  · intro h
    exact absurd h (by simp)
  · split
    · intro h
      exact absurd h (by simp)
    · split
      · intro h
        exact absurd h (by simp)
      · split
        · intro h
          exact absurd h (by simp)
        · split
          · intro h
            exact absurd h (by simp)
          · intro h
            simp only [Except.ok.injEq] at h
            subst h
            refine ⟨rfl, rfl, ?_, ?_, rfl, rfl⟩
            · constructor
              · intro hne
                by_contra hmode
                simp [hmode] at hne
              · intro hdemo
                simp [hdemo]
            · intro hprod
              have hnd : req.mode ≠ "demo" := by
                rw [hprod]
                decide
              simp [hnd]

/-- Witness for the expiry-policy theorem: one successful demo-mode deploy
(expiry stamped at now + TTL) and one successful prod-mode deploy (expiry
left null) of a checked record. -/
theorem deploy_expiry_policy_witness :
    (deploy
      (some ⟨"d1", "site", "checked", none, 1, 5, some "pass", none, some "pass", none,
             some "pass", none, none, 0, none, none⟩)
      ⟨"demo"⟩ true false (.ok "") (.ok "") 100 3600).updates =
      [.setDeploying "demo", .setDeployed "fake url" 100 (some 3700)] ∧
    (deploy
      (some ⟨"d1", "site", "checked", none, 1, 5, some "pass", none, some "pass", none,
             some "pass", none, none, 0, none, none⟩)
      ⟨"prod"⟩ true false (.ok "") (.ok "") 100 3600).updates =
      [.setDeploying "prod", .setDeployed "fake url" 100 none] := by
  have h1 := deploy_expiry_policy
    ⟨"d1", "site", "checked", none, 1, 5, some "pass", none, some "pass", none,
     some "pass", none, none, 0, none, none⟩
    ⟨"demo"⟩ true false (.ok "") (.ok "") 100 3600
    ⟨"d1", "fake url", "demo", some 3700⟩ rfl
  have h2 := deploy_expiry_policy
    ⟨"d1", "site", "checked", none, 1, 5, some "pass", none, some "pass", none,
     some "pass", none, none, 0, none, none⟩
    ⟨"prod"⟩ true false (.ok "") (.ok "") 100 3600
    ⟨"d1", "fake url", "prod", none⟩ rfl
  exact ⟨h1.1, h2.1⟩

/-- No update statement of the deploy handler changes a row id. -/
theorem applyUpdate_id (r : DeploymentRow) (u : DBUpdate) : (applyUpdate r u).id = r.id := by
  cases u <;> rfl

/-- No update statement of the deploy handler changes a recorded security
outcome. -/
theorem applyUpdate_sec (r : DeploymentRow) (u : DBUpdate) :
    (applyUpdate r u).securityStatus = r.securityStatus := by
  cases u <;> rfl

/-- A map by an id-preserving row function keeps ids unique. -/
theorem uniqueIds_map_of_id (d : List DeploymentRow) (f : DeploymentRow → DeploymentRow)
    (hf : ∀ r, (f r).id = r.id) (hu : UniqueIds d) : UniqueIds (d.map f) := by
  intro r1 h1 r2 h2 heq
  obtain ⟨s1, hs1, rfl⟩ := List.mem_map.mp h1
  obtain ⟨s2, hs2, rfl⟩ := List.mem_map.mp h2
  rw [hf s1, hf s2] at heq
  rw [hu s1 hs1 s2 hs2 heq]

/-- With a failed security outcome on record, the deploy handler raises
before issuing any update. -/
theorem deploy_secfail (row : DeploymentRow) (req : DeployRequest) (dirE en : Bool)
    (b a : Except String String) (now ttl : Nat)
    (hsec : row.securityStatus = some "fail") :
    (∃ err, (deploy (some row) req dirE en b a now ttl).response = .error err) ∧
    (deploy (some row) req dirE en b a now ttl).updates = [] ∧
    ((row.status = "checked" ∨ row.status = "deployed") →
       (deploy (some row) req dirE en b a now ttl).response =
         .error ⟨403, "Deployment blocked: security scan failed. Fix security issues and re-upload."⟩) := by
  simp only [deploy, hsec]
  split
  · rename_i hbad
    refine ⟨⟨_, rfl⟩, rfl, ?_⟩
    intro hst
    cases hst with
    | inl h => exact absurd h hbad.1
    | inr h => exact absurd h hbad.2
  · exact ⟨⟨_, rfl⟩, by simp, fun _ => by simp⟩

/-- One by-id update statement preserves id uniqueness, the security
invariant, and the fact that the targeted rows have no failed security
outcome. -/
theorem updateById_pres (d : List DeploymentRow) (id : String) (u : DBUpdate)
    (h : UniqueIds d ∧ SecInv d ∧ ∀ r ∈ d, r.id = id → r.securityStatus ≠ some "fail") :
    UniqueIds (updateById d id u) ∧ SecInv (updateById d id u) ∧
      ∀ r ∈ updateById d id u, r.id = id → r.securityStatus ≠ some "fail" := by
  obtain ⟨hu, hs, hid⟩ := h
  have hfid : ∀ r : DeploymentRow,
      ((if r.id = id then applyUpdate r u else r)).id = r.id := by
    intro r
    by_cases hr : r.id = id
    · simp [hr, applyUpdate_id]
    · simp [hr]
  have hfsec : ∀ r : DeploymentRow,
      ((if r.id = id then applyUpdate r u else r)).securityStatus = r.securityStatus := by
    intro r
    by_cases hr : r.id = id
    · simp [hr, applyUpdate_sec]
    · simp [hr]
  refine ⟨uniqueIds_map_of_id d _ hfid hu, ?_, ?_⟩
  · intro r' hr' hsec'
    obtain ⟨r, hr, rfl⟩ := List.mem_map.mp hr'
    by_cases hcase : r.id = id
    · exact absurd (by rw [← hfsec r]; exact hsec') (hid r hr hcase)
    · simp only [hcase, if_false] at hsec' ⊢
      exact hs r hr hsec'
  · intro r' hr' hid'
    obtain ⟨r, hr, rfl⟩ := List.mem_map.mp hr'
    rw [hfid r] at hid'
    rw [hfsec r]
    exact hid r hr hid'

/-- One cleanup-loop update preserves id uniqueness and the security
invariant. -/
theorem expireMap_pres (d : List DeploymentRow) (i : String)
    (h : UniqueIds d ∧ SecInv d) :
    UniqueIds (d.map (fun r => if r.id = i then expireRow r else r)) ∧
      SecInv (d.map (fun r => if r.id = i then expireRow r else r)) := by
  obtain ⟨hu, hs⟩ := h
  have hfid : ∀ r : DeploymentRow, ((if r.id = i then expireRow r else r)).id = r.id := by
    intro r
    by_cases hr : r.id = i
    · simp [hr, expireRow]
    · simp [hr]
  refine ⟨uniqueIds_map_of_id d _ hfid hu, ?_⟩
  intro r' hr' hsec'
  obtain ⟨r, hr, rfl⟩ := List.mem_map.mp hr'
  by_cases hcase : r.id = i
  · simp only [hcase, if_true, expireRow]
    intro hst
    exact absurd hst (by simp)
  · simp only [hcase, if_false] at hsec' ⊢
    exact hs r hr hsec'

/-- Invariant preservation along any fold. -/
theorem foldl_preserve {α σ : Type} (P : σ → Prop) (f : σ → α → σ)
    (hstep : ∀ s x, P s → P (f s x)) :
    ∀ (l : List α) (s : σ), P s → P (l.foldl f s) := by
  intro l
  induction l with
  | nil => intro s hp; exact hp
  | cons x xs ih => intro s hp; exact ih (f s x) (hstep s x hp)

/-- The two components of the cleanup fold evolve independently. -/
theorem cleanup_foldl_split (dt : String → Bool) (ids : List String) :
    ∀ (d : List DeploymentRow) (s : List String),
      ids.foldl (cleanupStep dt) (d, s) =
        (ids.foldl (fun d2 i => d2.map (fun r => if r.id = i then expireRow r else r)) d,
         ids.foldl (fun s2 i => s2.filter (fun x => x != i)) s) := by
  induction ids with
  | nil => intro d s; rfl
  | cons i l ih => intro d s; exact ih _ _

/-- C1: the deploy operation refuses promotion whenever the recorded
security outcome is `fail` — it raises (a 403 when the record was otherwise
deployable) before issuing any database update — and every operation on the
store preserves the invariant that no record with a failed security outcome
has status `deployed`. -/
theorem security_fail_blocks_deploy :
    (∀ (row : DeploymentRow) (req : DeployRequest) (dirE en : Bool)
       (b a : Except String String) (now ttl : Nat),
       row.securityStatus = some "fail" →
       (∃ err, (deploy (some row) req dirE en b a now ttl).response = .error err) ∧
       (deploy (some row) req dirE en b a now ttl).updates = [] ∧
       ((row.status = "checked" ∨ row.status = "deployed") →
          (deploy (some row) req dirE en b a now ttl).response =
            .error ⟨403, "Deployment blocked: security scan failed. Fix security issues and re-upload."⟩)) ∧
    (∀ (db : List DeploymentRow) (op : SystemOp),
       UniqueIds db → SecInv db →
       UniqueIds (applyOp db op) ∧ SecInv (applyOp db op)) := by
  constructor
  · intro row req dirE en b a now ttl hsec
    exact deploy_secfail row req dirE en b a now ttl hsec
  · intro db op hu hs
    cases op with
    | uploadOp id name meta checks now =>
      simp only [applyOp]
      split
      · exact ⟨hu, hs⟩
      · rename_i hany
        have hfresh : ∀ r ∈ db, r.id ≠ id := by
          intro r hr hcontra
          exact hany (List.any_eq_true.mpr ⟨r, hr, by simp [hcontra]⟩)
        constructor
        · intro r1 h1 r2 h2 heq
          rw [List.mem_append] at h1 h2
          cases h1 with
          | inl h1 =>
            cases h2 with
            | inl h2 => exact hu r1 h1 r2 h2 heq
            | inr h2 =>
              rw [List.mem_singleton] at h2
              subst h2
              exact absurd heq (hfresh r1 h1)
          | inr h1 =>
            rw [List.mem_singleton] at h1
            subst h1
            cases h2 with
            | inl h2 => exact absurd heq.symm (hfresh r2 h2)
            | inr h2 => rw [List.mem_singleton] at h2; rw [h2]
        · intro r hr hsec
          rw [List.mem_append] at hr
          cases hr with
          | inl hr => exact hs r hr hsec
          | inr hr =>
            rw [List.mem_singleton] at hr
            subst hr
            intro hst
            exact absurd hst (by simp [insertedRow])
    | deployOp id req dirE en b a now ttl =>
      simp only [applyOp]
      cases hf : db.find? (fun r => r.id == id) with
      | none =>
        simp only [hf, deploy]
        exact ⟨hu, hs⟩
      | some row =>
        have hmem : row ∈ db := List.mem_of_find?_eq_some hf
        have hrowid : row.id = id := by
          have := List.find?_some hf
          simpa using this
        by_cases hsec : row.securityStatus = some "fail"
        · rw [(deploy_secfail row req dirE en b a now ttl hsec).2.1]
          exact ⟨hu, hs⟩
        · have hid : ∀ r ∈ db, r.id = id → r.securityStatus ≠ some "fail" := by
            intro r hr hrid
            rw [hu r hr row hmem (hrid.trans hrowid.symm)]
            exact hsec
          have := foldl_preserve
            (fun d => UniqueIds d ∧ SecInv d ∧
              ∀ r ∈ d, r.id = id → r.securityStatus ≠ some "fail")
            (fun d u => updateById d id u)
            (fun d u hp => updateById_pres d id u hp)
            (deploy (some row) req dirE en b a now ttl).updates
            db ⟨hu, hs, hid⟩
          exact ⟨this.1, this.2.1⟩
    | cleanupOp now dt =>
      simp only [applyOp, cleanup_expired, cleanup_foldl_split]
      have := foldl_preserve
        (fun d => UniqueIds d ∧ SecInv d)
        (fun d i => d.map (fun r => if r.id = i then expireRow r else r))
        (fun d i hp => expireMap_pres d i hp)
        (expiredIds now db) db ⟨hu, hs⟩
      exact this
    | deleteOp id =>
      simp only [applyOp]
      constructor
      · intro r1 h1 r2 h2 heq
        exact hu r1 (List.mem_of_mem_filter h1) r2 (List.mem_of_mem_filter h2) heq
      · intro r hr hsec
        exact hs r (List.mem_of_mem_filter hr) hsec

/-- Witness for the security gate: a checked record with a failed security
outcome is refused with a 403, no update is issued, and the one-row store
keeps its invariant across that deploy call. -/
theorem security_fail_blocks_deploy_witness :
    (deploy
      (some ⟨"d1", "site", "checked", none, 1, 5, some "fail", none, some "pass", none,
             some "pass", none, none, 0, none, none⟩)
      ⟨"demo"⟩ true false (.ok "") (.ok "") 0 10).updates = [] ∧
    (deploy
      (some ⟨"d1", "site", "checked", none, 1, 5, some "fail", none, some "pass", none,
             some "pass", none, none, 0, none, none⟩)
      ⟨"demo"⟩ true false (.ok "") (.ok "") 0 10).response =
      .error ⟨403, "Deployment blocked: security scan failed. Fix security issues and re-upload."⟩ ∧
    SecInv (applyOp
      [⟨"d1", "site", "checked", none, 1, 5, some "fail", none, some "pass", none,
        some "pass", none, none, 0, none, none⟩]
      (.deployOp "d1" ⟨"demo"⟩ true false (.ok "") (.ok "") 0 10)) := by
  have hu : UniqueIds
      [(⟨"d1", "site", "checked", none, 1, 5, some "fail", none, some "pass", none,
        some "pass", none, none, 0, none, none⟩ : DeploymentRow)] := by
    intro r1 h1 r2 h2 _
    rw [List.mem_singleton] at h1 h2
    rw [h1, h2]
  have hs : SecInv
      [(⟨"d1", "site", "checked", none, 1, 5, some "fail", none, some "pass", none,
        some "pass", none, none, 0, none, none⟩ : DeploymentRow)] := by
    intro r hr _
    rw [List.mem_singleton] at hr
    subst hr
    simp
  have hA := security_fail_blocks_deploy.1
    ⟨"d1", "site", "checked", none, 1, 5, some "fail", none, some "pass", none,
     some "pass", none, none, 0, none, none⟩
    ⟨"demo"⟩ true false (.ok "") (.ok "") 0 10 rfl
  have hB := security_fail_blocks_deploy.2
    [⟨"d1", "site", "checked", none, 1, 5, some "fail", none, some "pass", none,
      some "pass", none, none, 0, none, none⟩]
    (.deployOp "d1" ⟨"demo"⟩ true false (.ok "") (.ok "") 0 10) hu hs
  exact ⟨hA.2.1, hA.2.2 (Or.inl rfl), hB.2⟩

/-! ## Theorems: lifecycle scheduler -/

/-- The fold of the per-id expiry updates equals a single map over the
table. -/
theorem foldl_expire_map (ids : List String) :
    ∀ db : List DeploymentRow,
      ids.foldl (fun d i => d.map (fun r => if r.id = i then expireRow r else r)) db =
        db.map (fun r => if ids.contains r.id then expireRow r else r) := by
  induction ids with
  | nil =>
    intro db
    simp
  | cons i l ih =>
    intro db
    rw [List.foldl_cons, ih, List.map_map]
    refine List.map_congr_left ?_
    intro r _
    by_cases hri : r.id = i
    · simp [Function.comp, hri, expireRow]
    · simp only [Function.comp, hri, if_false]
      have hcc : (i :: l).contains r.id = l.contains r.id := by
        simp [List.contains_cons, hri]
      rw [hcc]

/-- The fold of the per-id directory removals equals a single filter. -/
theorem foldl_filter_dirs (ids : List String) :
    ∀ dirs : List String,
      ids.foldl (fun s i => s.filter (fun x => x != i)) dirs =
        dirs.filter (fun x => !(ids.contains x)) := by
  induction ids with
  | nil =>
    intro dirs
    simp
  | cons i l ih =>
    intro dirs
    rw [List.foldl_cons, ih, List.filter_filter]
    refine List.filter_congr ?_
    intro x _
    by_cases hxi : x = i
    · simp [hxi, List.contains, List.elem_cons]
    · simp [hxi, List.contains, List.elem_cons, Ne.symm hxi]

/-- One scheduler cycle, closed form: every selected row is set to
`expired`, its directory is dropped, everything else is untouched. -/
theorem cleanup_expired_eq (now : Nat) (dt : String → Bool)
    (db : List DeploymentRow) (dirs : List String) :
    cleanup_expired now dt db dirs =
      (db.map (fun r => if (expiredIds now db).contains r.id then expireRow r else r),
       dirs.filter (fun x => !((expiredIds now db).contains x))) := by
  rw [cleanup_expired, cleanup_foldl_split, foldl_expire_map, foldl_filter_dirs]

/-- In a table with unique ids, the cleanup query selects the id of a row
iff that row itself satisfies the expiry condition. -/
theorem expiredIds_contains (now : Nat) (db : List DeploymentRow) (r : DeploymentRow)
    (hu : UniqueIds db) (hr : r ∈ db) :
    (expiredIds now db).contains r.id = rowExpired now r := by
  cases hexp : rowExpired now r with
  | true =>
    have : r.id ∈ expiredIds now db := by
      rw [expiredIds]
      exact List.mem_map.mpr ⟨r, List.mem_filter.mpr ⟨hr, hexp⟩, rfl⟩
    simpa [List.contains, List.elem_eq_mem] using this
  | false =>
    rw [Bool.eq_false_iff]
    intro hcontra
    have hmem : r.id ∈ expiredIds now db := by
      simpa [List.contains, List.elem_eq_mem] using hcontra
    obtain ⟨r2, hr2, hid2⟩ := List.mem_map.mp hmem
    obtain ⟨hr2db, hr2exp⟩ := List.mem_filter.mp hr2
    rw [hu r2 hr2db r hr hid2] at hr2exp
    rw [hexp] at hr2exp
    cases hr2exp

/-- C5: in one scheduler cycle, every record in status `deployed` whose
non-null `expires_at` is strictly past is set to `expired` and loses its
backing directory — for every behaviour of the destroy call, including a
throwing one — while every other record and its directory are untouched. -/
theorem cleanup_expired_cycle :
    ∀ (now : Nat) (dt : String → Bool) (db : List DeploymentRow) (dirs : List String),
      UniqueIds db →
      ∀ r ∈ db,
        (∀ t : Nat, r.status = "deployed" → r.expiresAt = some t → t < now →
          expireRow r ∈ (cleanup_expired now dt db dirs).1 ∧
          (cleanup_expired now dt db dirs).2.contains r.id = false) ∧
        (¬ (r.status = "deployed" ∧ ∃ t, r.expiresAt = some t ∧ t < now) →
          r ∈ (cleanup_expired now dt db dirs).1 ∧
          (cleanup_expired now dt db dirs).2.contains r.id = dirs.contains r.id) := by
  intro now dt db dirs hu r hr
  have hcontains := expiredIds_contains now db r hu hr
  constructor
  · intro t hst hexp htlt
    have hexpired : rowExpired now r = true := by
      simp [rowExpired, hexp, hst, htlt]
    rw [cleanup_expired_eq]
    constructor
    · refine List.mem_map.mpr ⟨r, hr, ?_⟩
      rw [hcontains, hexpired]
      simp
    · rw [Bool.eq_false_iff]
      intro hcontra
      have : r.id ∈ dirs.filter (fun x => !((expiredIds now db).contains x)) := by
        simpa [List.contains, List.elem_eq_mem] using hcontra
      have hpred := List.of_mem_filter this
      rw [hcontains, hexpired] at hpred
      cases hpred
  · intro hnot
    have hexpired : rowExpired now r = false := by
      rw [Bool.eq_false_iff]
      intro hcontra
      rw [rowExpired, Bool.and_eq_true] at hcontra
      refine hnot ⟨by simpa using hcontra.2, ?_⟩
      cases hexp : r.expiresAt with
      | none => rw [hexp] at hcontra; simp at hcontra
      | some t =>
        rw [hexp] at hcontra
        exact ⟨t, rfl, by simpa using hcontra.1⟩
    rw [cleanup_expired_eq]
    constructor
    · have hmm := List.mem_map_of_mem
        (fun s : DeploymentRow => if (expiredIds now db).contains s.id then expireRow s else s) hr
      simp only [hcontains, hexpired] at hmm
      simpa using hmm
    · simp only []
      by_cases hmem : r.id ∈ dirs
      · have hnm : r.id ∉ expiredIds now db := by
          intro hcontra
          have hce : (expiredIds now db).contains r.id = true := by
            simpa [List.contains, List.elem_eq_mem] using hcontra
          rw [hcontains, hexpired] at hce
          cases hce
        have hmf : r.id ∈ dirs.filter (fun x => !((expiredIds now db).contains x)) :=
          List.mem_filter.mpr ⟨hmem, by rw [hcontains, hexpired]; rfl⟩
        simp [List.contains, List.elem_eq_mem, hmf, hmem, hnm]
      · have : r.id ∉ dirs.filter (fun x => !((expiredIds now db).contains x)) := by
          intro hcontra
          exact hmem (List.mem_of_mem_filter hcontra)
        simp [List.contains, List.elem_eq_mem, this, hmem]

/-- Witness for the scheduler cycle: a two-row table where the demo
deployment is past its expiry and the destroy call throws; the expired row
is marked and its directory dropped, the checked row and its directory are
untouched. -/
theorem cleanup_expired_cycle_witness :
    expireRow ⟨"d1", "a", "deployed", some "demo", 1, 5, some "pass", none, some "pass", none,
               some "pass", none, some "u", 0, some 1, some 5⟩ ∈
      (cleanup_expired 10 (fun _ => true)
        [⟨"d1", "a", "deployed", some "demo", 1, 5, some "pass", none, some "pass", none,
          some "pass", none, some "u", 0, some 1, some 5⟩,
         ⟨"d2", "b", "checked", none, 1, 5, some "pass", none, some "pass", none,
          some "pass", none, none, 0, none, none⟩] ["d1", "d2"]).1 ∧
    (cleanup_expired 10 (fun _ => true)
      [⟨"d1", "a", "deployed", some "demo", 1, 5, some "pass", none, some "pass", none,
        some "pass", none, some "u", 0, some 1, some 5⟩,
       ⟨"d2", "b", "checked", none, 1, 5, some "pass", none, some "pass", none,
        some "pass", none, none, 0, none, none⟩] ["d1", "d2"]).2.contains "d1" = false ∧
    (⟨"d2", "b", "checked", none, 1, 5, some "pass", none, some "pass", none,
      some "pass", none, none, 0, none, none⟩ : DeploymentRow) ∈
      (cleanup_expired 10 (fun _ => true)
        [⟨"d1", "a", "deployed", some "demo", 1, 5, some "pass", none, some "pass", none,
          some "pass", none, some "u", 0, some 1, some 5⟩,
         ⟨"d2", "b", "checked", none, 1, 5, some "pass", none, some "pass", none,
          some "pass", none, none, 0, none, none⟩] ["d1", "d2"]).1 ∧
    (cleanup_expired 10 (fun _ => true)
      [⟨"d1", "a", "deployed", some "demo", 1, 5, some "pass", none, some "pass", none,
        some "pass", none, some "u", 0, some 1, some 5⟩,
       ⟨"d2", "b", "checked", none, 1, 5, some "pass", none, some "pass", none,
        some "pass", none, none, 0, none, none⟩] ["d1", "d2"]).2.contains "d2" = true := by
  have hu : UniqueIds
      [⟨"d1", "a", "deployed", some "demo", 1, 5, some "pass", none, some "pass", none,
        some "pass", none, some "u", 0, some 1, some 5⟩,
       ⟨"d2", "b", "checked", none, 1, 5, some "pass", none, some "pass", none,
        some "pass", none, none, 0, none, none⟩] := by
    intro a ha b hb heq
    simp only [List.mem_cons, List.mem_singleton, List.not_mem_nil, or_false] at ha hb
    cases ha with
    | inl ha =>
      cases hb with
      | inl hb => rw [ha, hb]
      | inr hb =>
        rw [ha, hb] at heq
        exact absurd heq (by decide)
    | inr ha =>
      cases hb with
      | inl hb =>
        rw [ha, hb] at heq
        exact absurd heq (by decide)
      | inr hb => rw [ha, hb]
  have h1 := (cleanup_expired_cycle 10 (fun _ => true)
    [⟨"d1", "a", "deployed", some "demo", 1, 5, some "pass", none, some "pass", none,
      some "pass", none, some "u", 0, some 1, some 5⟩,
     ⟨"d2", "b", "checked", none, 1, 5, some "pass", none, some "pass", none,
      some "pass", none, none, 0, none, none⟩] ["d1", "d2"] hu
    ⟨"d1", "a", "deployed", some "demo", 1, 5, some "pass", none, some "pass", none,
     some "pass", none, some "u", 0, some 1, some 5⟩ (by simp)).1 5 rfl rfl (by decide)
  have h2 := (cleanup_expired_cycle 10 (fun _ => true)
    [⟨"d1", "a", "deployed", some "demo", 1, 5, some "pass", none, some "pass", none,
      some "pass", none, some "u", 0, some 1, some 5⟩,
     ⟨"d2", "b", "checked", none, 1, 5, some "pass", none, some "pass", none,
      some "pass", none, none, 0, none, none⟩] ["d1", "d2"] hu
    ⟨"d2", "b", "checked", none, 1, 5, some "pass", none, some "pass", none,
     some "pass", none, none, 0, none, none⟩ (by simp)).2
    (fun hcontra => absurd hcontra.1 (by decide))
  exact ⟨h1.1, h1.2, h2.1, by rw [h2.2]; rfl⟩

/-! ## Theorems: archive validator -/

/-- A completed scan pass certifies every non-skipped entry (no traversal,
allowed extension) and bounds the accumulated size. -/
theorem scan_from_ok (entries : List ZipEntry) :
    ∀ (fc0 ts0 fc ts : Nat),
      ts0 ≤ MAX_EXTRACTED_SIZE →
      List.foldlM scanStep (fc0, ts0) entries = .ok (fc, ts) →
      (∀ e ∈ entries, isSkipped e = false →
         hasTraversal e = false ∧ ALLOWED_EXTENSIONS.contains (entryExt e) = true) ∧
      ts = ts0 + ((entries.filter (fun e => ¬ isSkipped e)).map ZipEntry.fileSize).sum ∧
      ts ≤ MAX_EXTRACTED_SIZE := by
  induction entries with
  | nil =>
    intro fc0 ts0 fc ts hts0 h
    simp only [List.foldlM_nil] at h
    cases h
    refine ⟨by simp, by simp, hts0⟩
  | cons e es ih =>
    intro fc0 ts0 fc ts hts0 h
    rw [List.foldlM_cons] at h
    by_cases hsk : isSkipped e = true
    · rw [scanStep, if_pos hsk] at h
      have h2 : List.foldlM scanStep (fc0, ts0) es = .ok (fc, ts) := h
      obtain ⟨hall, hsum, hle⟩ := ih fc0 ts0 fc ts hts0 h2
      refine ⟨?_, ?_, hle⟩
      · intro x hx hxsk
        cases hx with
        | head => exact absurd hsk (by rw [hxsk]; simp)
        | tail _ hx => exact hall x hx hxsk
      · rw [hsum]
        congr 1
        rw [List.filter_cons_of_neg (by simp [hsk])]
    · rw [Bool.not_eq_true] at hsk
      by_cases htr : hasTraversal e = true
      · rw [scanStep, if_neg (by simp [hsk]), if_pos htr] at h
        cases h
      · rw [Bool.not_eq_true] at htr
        by_cases hext : ALLOWED_EXTENSIONS.contains (entryExt e) = true
        · by_cases hsz : ts0 + e.fileSize > MAX_EXTRACTED_SIZE
          · rw [scanStep, if_neg (by simp [hsk]), if_neg (by simp [htr]),
               if_neg (not_not_intro hext), if_pos hsz] at h
            cases h
          · rw [scanStep, if_neg (by simp [hsk]), if_neg (by simp [htr]),
               if_neg (not_not_intro hext), if_neg hsz] at h
            have h2 : List.foldlM scanStep (fc0 + 1, ts0 + e.fileSize) es = .ok (fc, ts) := h
            obtain ⟨hall, hsum, hle⟩ := ih (fc0 + 1) (ts0 + e.fileSize) fc ts
              (Nat.le_of_not_lt hsz) h2
            refine ⟨?_, ?_, hle⟩
            · intro x hx hxsk
              cases hx with
              | head => exact ⟨htr, hext⟩
              | tail _ hx => exact hall x hx hxsk
            · rw [hsum, List.filter_cons_of_pos (by simp [hsk])]
              simp only [List.map_cons, List.sum_cons]
              omega
        · rw [scanStep, if_neg (by simp [hsk]), if_neg (by simp [htr]),
             if_pos hext] at h
          cases h

/-- Entirely skipped input leaves the scan state untouched. -/
theorem scan_skipped_all (entries : List ZipEntry)
    (h : ∀ e ∈ entries, isSkipped e = true) :
    ∀ st : Nat × Nat, List.foldlM scanStep st entries = .ok st := by
  induction entries with
  | nil => intro st; rfl
  | cons e es ih =>
    intro st
    rw [List.foldlM_cons, scanStep, if_pos (h e (List.mem_cons_self e es))]
    exact ih (fun x hx => h x (List.mem_cons_of_mem e hx)) st

/-- Entirely skipped input writes nothing and raises nothing. -/
theorem writeFold_skipped_all (entries : List ZipEntry)
    (h : ∀ e ∈ entries, isSkipped e = true) :
    ∀ fs : Fs, writeFold fs entries = (fs, none) := by
  induction entries with
  | nil => intro fs; rfl
  | cons e es ih =>
    intro fs
    rw [writeFold, if_pos (h e (List.mem_cons_self e es))]
    exact ih (fun x hx => h x (List.mem_cons_of_mem e hx)) fs

/-- C2 (counterexample): an archive can contain an entry with a disallowed
extension and still validate, because entries under `__MACOSX/` (like
directory entries and hidden dot-files) are skipped before the extension
check: the literal claim over every entry fails on the code. -/
theorem disallowed_ext_in_skipped_entry_accepted :
    (∃ e ∈ ([⟨"__MACOSX/a.exe", 1⟩, ⟨"index.html", 1⟩] : List ZipEntry),
       ALLOWED_EXTENSIONS.contains (entryExt e) = false) ∧
    (validate_and_extract 0 true [⟨"__MACOSX/a.exe", 1⟩, ⟨"index.html", 1⟩]).result =
      .ok ⟨1, 1⟩ :=
  ⟨⟨⟨"__MACOSX/a.exe", 1⟩, List.mem_cons_self _ _, by decide⟩, rfl⟩

/-- C2 (amended with the skip rule): when any entry that survives the skip
rule has a traversal segment or a disallowed extension, or the accepted
entries together exceed the extracted-size ceiling, validation fails with an
error and the scan pass rejects before a single file is written. -/
theorem scan_rejects_before_write :
    ∀ (zipSize : Nat) (isZip : Bool) (entries : List ZipEntry),
      ((∃ e ∈ entries, isSkipped e = false ∧ hasTraversal e = true) ∨
       (∃ e ∈ entries, isSkipped e = false ∧
          ALLOWED_EXTENSIONS.contains (entryExt e) = false) ∨
       ((entries.filter (fun e => ¬ isSkipped e)).map ZipEntry.fileSize).sum
         > MAX_EXTRACTED_SIZE) →
      (∃ msg, (validate_and_extract zipSize isZip entries).result = .error msg) ∧
      (validate_and_extract zipSize isZip entries).destFs = [] := by
  intro zipSize isZip entries hbad
  rw [validate_and_extract]
  by_cases hz : zipSize > MAX_ZIP_SIZE
  · rw [if_pos hz]
    exact ⟨⟨_, rfl⟩, rfl⟩
  · rw [if_neg hz]
    by_cases hiz : isZip = true
    · rw [if_neg (by simp [hiz])]
      cases hscan : scanEntries entries with
      | error msg => exact ⟨⟨msg, rfl⟩, rfl⟩
      | ok st =>
        obtain ⟨hall, hsum, hle⟩ :=
          scan_from_ok entries 0 0 st.1 st.2 (Nat.zero_le _) (by rw [← hscan]; rfl)
        exfalso
        cases hbad with
        | inl hb =>
          obtain ⟨e, he, hesk, hetr⟩ := hb
          rw [(hall e he hesk).1] at hetr
          cases hetr
        | inr hb =>
          cases hb with
          | inl hb =>
            obtain ⟨e, he, hesk, hext⟩ := hb
            rw [(hall e he hesk).2] at hext
            cases hext
          | inr hb =>
            rw [hsum] at hle
            simp only [Nat.zero_add] at hle
            omega
    · rw [if_pos (by simp [hiz])]
      exact ⟨⟨_, rfl⟩, rfl⟩

/-- Witness for the amended scan theorem: a single non-skipped `.exe` entry
is rejected with nothing written. -/
theorem scan_rejects_before_write_witness :
    (∃ msg, (validate_and_extract 0 true [⟨"x.exe", 1⟩]).result = .error msg) ∧
    (validate_and_extract 0 true [⟨"x.exe", 1⟩]).destFs = [] :=
  scan_rejects_before_write 0 true [⟨"x.exe", 1⟩]
    (Or.inr (Or.inl ⟨⟨"x.exe", 1⟩, List.mem_cons_self _ _, by decide, by decide⟩))

/-- C10: a size-admissible well-formed archive all of whose entries are
skipped (directories, macOS metadata, hidden dot-files) — in particular an
archive with no entries at all — fails validation with the empty-archive
error instead of succeeding with a zero file count. -/
theorem empty_archive_rejected :
    ∀ (zipSize : Nat) (entries : List ZipEntry),
      zipSize ≤ MAX_ZIP_SIZE →
      (∀ e ∈ entries, isSkipped e = true) →
      (validate_and_extract zipSize true entries).result = .error "ZIP archive is empty" ∧
      (validate_and_extract zipSize true entries).destFs = [] := by
  intro zipSize entries hz hsk
  rw [validate_and_extract, if_neg (by omega), if_neg (by simp),
     scanEntries, scan_skipped_all entries hsk (0, 0),
     writeFold_skipped_all entries hsk []]
  exact ⟨rfl, rfl⟩

/-- Witness for the empty-archive theorem: an archive holding one directory
entry, one macOS metadata file and one hidden file. -/
theorem empty_archive_rejected_witness :
    (validate_and_extract 0 true
      [⟨"assets/", 0⟩, ⟨"__MACOSX/x.html", 9⟩, ⟨".hidden.html", 3⟩]).result =
      .error "ZIP archive is empty" ∧
    (validate_and_extract 0 true
      [⟨"assets/", 0⟩, ⟨"__MACOSX/x.html", 9⟩, ⟨".hidden.html", 3⟩]).destFs = [] :=
  empty_archive_rejected 0
    [⟨"assets/", 0⟩, ⟨"__MACOSX/x.html", 9⟩, ⟨".hidden.html", 3⟩]
    (by decide) (by decide)

/-! ## Theorems: write pass and hoist loop -/

/-- The written tree is prefix-free: no file path sits strictly below
another (a path cannot be both a file and a directory). -/
def PrefixFree (fs : Fs) : Prop :=
  ∀ p ∈ fs, ∀ q ∈ fs, p.isPrefixOf q = true → p = q

/-- A path whose single-component prefix is `[b]` starts with `b`. -/
theorem head?_of_prefix_singleton {b : String} {q : List String}
    (h : ([b] : List String).isPrefixOf q = true) : q.head? = some b := by
  obtain ⟨t, ht⟩ := List.isPrefixOf_iff_prefix.mp h
  rw [← ht]
  rfl

/-- A path headed by `x` decomposes as a cons. -/
theorem head?_eq_some_cases {d : String} {q : List String}
    (h : q.head? = some d) : ∃ t, q = d :: t := by
  cases q with
  | nil => cases h
  | cons a t =>
    injection h with h
    subst h
    exact ⟨t, rfl⟩

/-- Every non-empty proper prefix of the target is among its ancestor
directories. -/
theorem mem_ancestorDirs {p x : List String} (hne : x ≠ []) (hpre : x <+: p)
    (hlt : x.length < p.length) : x ∈ ancestorDirs p := by
  rw [ancestorDirs, List.mem_map]
  have h1 : 1 ≤ x.length := List.length_pos.mpr hne
  refine ⟨x.length - 1, List.mem_range.mpr (by omega), ?_⟩
  have hx : x.length - 1 + 1 = x.length := by omega
  rw [hx]
  exact (List.prefix_iff_eq_take.mp hpre).symm

/-- One successful write keeps the tree prefix-free and its paths
non-empty. -/
theorem writeOne_pf {fs : Fs} {p : List String} {fs2 : Fs}
    (hpne : p ≠ []) (hpf : PrefixFree fs) (hne : ∀ q ∈ fs, q ≠ [])
    (h : writeOne fs p = .ok fs2) :
    PrefixFree fs2 ∧ ∀ q ∈ fs2, q ≠ [] := by
  rw [writeOne] at h
  by_cases hanc : ((ancestorDirs p).any (fun q => fs.contains q)) = true
  · rw [if_pos hanc] at h
    cases h
  · rw [if_neg hanc] at h
    by_cases hdir : existsDir fs p = true
    · rw [if_pos hdir] at h
      cases h
    · rw [if_neg hdir] at h
      simp only [Except.ok.injEq] at h
      by_cases hc : fs.contains p = true
      · rw [if_pos hc] at h
        subst h
        exact ⟨hpf, hne⟩
      · rw [if_neg hc] at h
        subst h
        constructor
        · intro x hx y hy hxy
          rw [List.mem_append, List.mem_singleton] at hx hy
          cases hx with
          | inl hx =>
            cases hy with
            | inl hy => exact hpf x hx y hy hxy
            | inr hy =>
              rw [hy] at hxy ⊢
              have hxp : x <+: p := List.isPrefixOf_iff_prefix.mp hxy
              rcases Nat.lt_or_ge x.length p.length with hlen | hlen
              · exfalso
                apply hanc
                exact List.any_eq_true.mpr
                  ⟨x, mem_ancestorDirs (hne x hx) hxp hlen,
                   by simp [List.contains, List.elem_eq_mem, hx]⟩
              · exact hxp.eq_of_length (Nat.le_antisymm hxp.length_le hlen)
          | inr hx =>
            rw [hx] at hxy ⊢
            cases hy with
            | inl hy =>
              have hxp : p <+: y := List.isPrefixOf_iff_prefix.mp hxy
              rcases Nat.lt_or_ge p.length y.length with hlen | hlen
              · exfalso
                apply hdir
                rw [existsDir]
                exact List.any_eq_true.mpr ⟨y, hy, by simp [hxy, hlen]⟩
              · exact hxp.eq_of_length (Nat.le_antisymm hxp.length_le hlen)
            | inr hy =>
              rw [hy]
        · intro q hq
          rw [List.mem_append, List.mem_singleton] at hq
          cases hq with
          | inl hq => exact hne q hq
          | inr hq => rw [hq]; exact hpne

/-- A completed write pass leaves a prefix-free tree with non-empty
paths. -/
theorem writeFold_pf :
    ∀ (entries : List ZipEntry) (fs wfs : Fs),
      PrefixFree fs → (∀ q ∈ fs, q ≠ []) →
      (∀ e ∈ entries, isSkipped e = false → pathParts e.filename ≠ []) →
      writeFold fs entries = (wfs, none) →
      PrefixFree wfs ∧ ∀ q ∈ wfs, q ≠ [] := by
  intro entries
  induction entries with
  | nil =>
    intro fs wfs h1 h2 _ h
    rw [writeFold] at h
    rw [Prod.mk.injEq] at h
    rw [← h.1]
    exact ⟨h1, h2⟩
  | cons e es ih =>
    intro fs wfs h1 h2 hh h
    rw [writeFold] at h
    by_cases hsk : isSkipped e = true
    · rw [if_pos hsk] at h
      exact ih fs wfs h1 h2 (fun x hx => hh x (List.mem_cons_of_mem e hx)) h
    · rw [if_neg hsk] at h
      by_cases habs : isAbsEntry e = true
      · rw [if_pos habs] at h
        exact ih fs wfs h1 h2 (fun x hx => hh x (List.mem_cons_of_mem e hx)) h
      · rw [if_neg habs] at h
        cases hw : writeOne fs (pathParts e.filename) with
        | error msg =>
          rw [hw] at h
          rw [Prod.mk.injEq] at h
          cases h.2
        | ok fs3 =>
          rw [hw] at h
          have hstep := writeOne_pf
            (hh e (List.mem_cons_self e es) (by simpa using hsk)) h1 h2 hw
          exact ih fs3 wfs hstep.1 hstep.2
            (fun x hx => hh x (List.mem_cons_of_mem e hx)) h

/-- An entry whose extension passed the allow-list has a non-empty
component path. -/
theorem allowed_ext_parts_ne (e : ZipEntry)
    (h : ALLOWED_EXTENSIONS.contains (entryExt e) = true) :
    pathParts e.filename ≠ [] := by
  intro hp
  have he : entryExt e = "" := by
    rw [entryExt, pathName, hp]
    rfl
  rw [he] at h
  exact absurd h (by decide)

/-- The hoist loop, run over distinct items none of which shares its name
with a top-level entry, performs exactly the collision-free re-rooting
`hoist` and raises nothing. -/
theorem hoistItems_ok (d : String) :
    ∀ (bs : List String) (fs : Fs),
      PrefixFree fs →
      (∀ q ∈ fs, q ≠ []) →
      bs.Nodup →
      (∀ q ∈ fs, q.head? = some d → ∃ b ∈ bs, q.tail.head? = some b) →
      (∀ b ∈ bs, ∀ q ∈ fs, q.head? ≠ some b) →
      hoistItems d fs bs = (hoist fs d, none) := by
  intro bs
  induction bs with
  | nil =>
    intro fs hpf hne hnd hd hnc
    rw [hoistItems, List.foldl_nil, hoist]
    have hid : fs.map (fun q => if q.head? = some d then q.tail else q) = fs := by
      conv_rhs => rw [← List.map_id fs]
      refine List.map_congr_left ?_
      intro q hq
      by_cases hqd : q.head? = some d
      · obtain ⟨b, hb, _⟩ := hd q hq hqd
        cases hb
      · rw [if_neg hqd]
        rfl
    rw [hid]
  | cons b bs' ih =>
    intro fs hpf hne hnd hd hnc
    have hnoroot : ∀ q ∈ fs, q.head? ≠ some b :=
      fun q hq => hnc b (List.mem_cons_self _ _) q hq
    have hbmem : b ∉ bs' := (List.nodup_cons.mp hnd).1
    rw [hoistItems, List.foldl_cons]
    by_cases hfile : fs.contains [d, b] = true
    · -- the item is a file
      have hmem : [d, b] ∈ fs := by
        simpa [List.contains, List.elem_eq_mem] using hfile
      have hbd : b ≠ d := by
        intro hbdeq
        exact hnoroot [d, b] hmem (by rw [hbdeq]; rfl)
      have hnodir : existsDir fs [b] = false := by
        rw [existsDir, List.any_eq_false]
        intro q hq hcontra
        rw [Bool.and_eq_true] at hcontra
        exact hnoroot q hq (head?_of_prefix_singleton hcontra.1)
      have hfilter : fs.filter (fun q => q ≠ [b]) = fs := by
        rw [List.filter_eq_self]
        intro q hq
        simp only [decide_eq_true_eq]
        intro hqb
        exact hnoroot q hq (by rw [hqb]; rfl)
      have hstep : hoistStep d (fs, none) b =
          (fs.map (fun q => if q = [d, b] then [b] else q), none) := by
        simp only [hoistStep]
        rw [if_pos hfile, if_neg (by simp [hnodir]), hfilter]
      rw [hstep]
      have hIH : hoistItems d
          (fs.map (fun q => if q = [d, b] then [b] else q)) bs' =
          (hoist (fs.map (fun q => if q = [d, b] then [b] else q)) d, none) := by
        refine ih _ ?_ ?_ hnd.of_cons ?_ ?_
        · intro x hx y hy hxy
          obtain ⟨qx, hqx, rfl⟩ := List.mem_map.mp hx
          obtain ⟨qy, hqy, rfl⟩ := List.mem_map.mp hy
          by_cases hqx1 : qx = [d, b] <;> by_cases hqy1 : qy = [d, b]
          · rw [hqx1, hqy1]
          · rw [if_pos hqx1, if_neg hqy1] at hxy ⊢
            exact absurd (head?_of_prefix_singleton hxy) (hnoroot qy hqy)
          · rw [if_neg hqx1, if_pos hqy1] at hxy ⊢
            exfalso
            obtain ⟨t, ht⟩ := List.isPrefixOf_iff_prefix.mp hxy
            cases hcx : qx with
            | nil => exact hne qx hqx hcx
            | cons a rest =>
              rw [hcx] at ht
              cases rest with
              | nil =>
                injection ht with ha _
                exact hnoroot qx hqx (by rw [hcx, ha]; rfl)
              | cons a2 rest2 => cases ht
          · rw [if_neg hqx1, if_neg hqy1] at hxy ⊢
            rw [hpf qx hqx qy hqy hxy]
        · intro x hx
          obtain ⟨q, hq, rfl⟩ := List.mem_map.mp hx
          by_cases hq1 : q = [d, b]
          · rw [if_pos hq1]
            simp
          · rw [if_neg hq1]
            exact hne q hq
        · intro x hx hxd
          obtain ⟨q, hq, rfl⟩ := List.mem_map.mp hx
          by_cases hq1 : q = [d, b]
          · rw [if_pos hq1] at hxd
            injection hxd with hxd
            exact absurd hxd hbd
          · rw [if_neg hq1] at hxd ⊢
            obtain ⟨b2, hb2, htail⟩ := hd q hq hxd
            cases hb2 with
            | head =>
              exfalso
              obtain ⟨rest, hrest⟩ := head?_eq_some_cases hxd
              rw [hrest, List.tail_cons] at htail
              obtain ⟨t, ht⟩ := head?_eq_some_cases htail
              apply hq1
              refine (hpf [d, b] hmem q hq ?_).symm
              rw [hrest, ht]
              exact List.isPrefixOf_iff_prefix.mpr ⟨t, rfl⟩
            | tail _ hb2 => exact ⟨b2, hb2, htail⟩
        · intro b2 hb2 x hx hxh
          obtain ⟨q, hq, rfl⟩ := List.mem_map.mp hx
          by_cases hq1 : q = [d, b]
          · rw [if_pos hq1] at hxh
            injection hxh with hxh
            rw [← hxh] at hb2
            exact hbmem hb2
          · rw [if_neg hq1] at hxh
            exact hnc b2 (List.mem_cons_of_mem b hb2) q hq hxh
      rw [show List.foldl (hoistStep d)
          (fs.map (fun q => if q = [d, b] then [b] else q), none) bs' =
          hoistItems d (fs.map (fun q => if q = [d, b] then [b] else q)) bs' from rfl,
        hIH]
      rw [Prod.mk.injEq]
      refine ⟨?_, rfl⟩
      rw [hoist, hoist, List.map_map]
      refine List.map_congr_left ?_
      intro q hq
      simp only [Function.comp]
      by_cases hq1 : q = [d, b]
      · rw [if_pos hq1, hq1]
        rw [if_neg (show ¬(([b] : List String).head? = some d) from by simp [hbd]),
           if_pos (show ([d, b] : List String).head? = some d from rfl)]
        rfl
      · rw [if_neg hq1]
    · -- the item is a directory
      have hnex : fsExists fs [b] = false := by
        rw [fsExists, List.any_eq_false]
        intro q hq hcontra
        exact hnoroot q hq (head?_of_prefix_singleton hcontra)
      have hstep : hoistStep d (fs, none) b =
          (fs.map (fun q => if ([d, b]).isPrefixOf q then b :: q.drop 2 else q), none) := by
        simp only [hoistStep]
        rw [if_neg hfile, if_neg (by simp [hnex])]
      have hunder : ∀ q ∈ fs, ([d, b]).isPrefixOf q = true →
          ∃ t, q = d :: b :: t ∧ b ≠ d := by
        intro q hq hpre
        obtain ⟨t, ht⟩ := List.isPrefixOf_iff_prefix.mp hpre
        refine ⟨t, ht.symm, ?_⟩
        intro hbdeq
        apply hnoroot q hq
        rw [← ht, hbdeq]
        rfl
      rw [hstep]
      have hIH : hoistItems d
          (fs.map (fun q => if ([d, b]).isPrefixOf q then b :: q.drop 2 else q)) bs' =
          (hoist (fs.map (fun q => if ([d, b]).isPrefixOf q then b :: q.drop 2 else q)) d,
           none) := by
        refine ih _ ?_ ?_ hnd.of_cons ?_ ?_
        · intro x hx y hy hxy
          obtain ⟨qx, hqx, rfl⟩ := List.mem_map.mp hx
          obtain ⟨qy, hqy, rfl⟩ := List.mem_map.mp hy
          by_cases hux : ([d, b]).isPrefixOf qx = true <;>
            by_cases huy : ([d, b]).isPrefixOf qy = true
          · obtain ⟨tx, htx, _⟩ := hunder qx hqx hux
            obtain ⟨ty, hty, _⟩ := hunder qy hqy huy
            rw [if_pos hux, if_pos huy, htx, hty] at hxy ⊢
            simp only [List.drop_succ_cons, List.drop_zero] at hxy ⊢
            have hpp : (b :: tx) <+: (b :: ty) := List.isPrefixOf_iff_prefix.mp hxy
            have htt : tx <+: ty := (List.cons_prefix_cons.mp hpp).2
            have hqq : (d :: b :: tx) <+: (d :: b :: ty) := by
              rw [List.cons_prefix_cons, List.cons_prefix_cons]
              exact ⟨rfl, rfl, htt⟩
            have := hpf qx hqx qy hqy
              (by rw [htx, hty]; exact List.isPrefixOf_iff_prefix.mpr hqq)
            rw [htx, hty] at this
            simp only [List.cons.injEq, true_and] at this
            rw [this]
          · rw [if_pos hux, if_neg huy] at hxy ⊢
            obtain ⟨tx, htx, _⟩ := hunder qx hqx hux
            rw [htx] at hxy
            simp only [List.drop_succ_cons, List.drop_zero] at hxy ⊢
            exfalso
            obtain ⟨t, ht⟩ := List.isPrefixOf_iff_prefix.mp hxy
            apply hnoroot qy hqy
            rw [← ht]
            rfl
          · rw [if_neg hux, if_pos huy] at hxy ⊢
            obtain ⟨ty, hty, _⟩ := hunder qy hqy huy
            rw [hty] at hxy
            simp only [List.drop_succ_cons, List.drop_zero] at hxy ⊢
            exfalso
            obtain ⟨t, ht⟩ := List.isPrefixOf_iff_prefix.mp hxy
            cases hcx : qx with
            | nil => exact hne qx hqx hcx
            | cons a rest =>
              rw [hcx] at ht
              injection ht with ha _
              exact hnoroot qx hqx (by rw [hcx, ha]; rfl)
          · rw [if_neg hux, if_neg huy] at hxy ⊢
            rw [hpf qx hqx qy hqy hxy]
        · intro x hx
          obtain ⟨q, hq, rfl⟩ := List.mem_map.mp hx
          by_cases hu : ([d, b]).isPrefixOf q = true
          · rw [if_pos hu]
            simp
          · rw [if_neg hu]
            exact hne q hq
        · intro x hx hxd
          obtain ⟨q, hq, rfl⟩ := List.mem_map.mp hx
          by_cases hu : ([d, b]).isPrefixOf q = true
          · obtain ⟨t, ht, hbd⟩ := hunder q hq hu
            rw [if_pos hu, ht] at hxd
            simp only [List.drop_succ_cons, List.drop_zero] at hxd
            injection hxd with hxd
            exact absurd hxd hbd
          · rw [if_neg hu] at hxd ⊢
            obtain ⟨b2, hb2, htail⟩ := hd q hq hxd
            cases hb2 with
            | head =>
              exfalso
              obtain ⟨rest, hrest⟩ := head?_eq_some_cases hxd
              rw [hrest, List.tail_cons] at htail
              obtain ⟨t, ht⟩ := head?_eq_some_cases htail
              apply hu
              rw [hrest, ht]
              exact List.isPrefixOf_iff_prefix.mpr ⟨t, rfl⟩
            | tail _ hb2 => exact ⟨b2, hb2, htail⟩
        · intro b2 hb2 x hx hxh
          obtain ⟨q, hq, rfl⟩ := List.mem_map.mp hx
          by_cases hu : ([d, b]).isPrefixOf q = true
          · obtain ⟨t, ht, _⟩ := hunder q hq hu
            rw [if_pos hu, ht] at hxh
            simp only [List.drop_succ_cons, List.drop_zero] at hxh
            injection hxh with hxh
            rw [← hxh] at hb2
            exact hbmem hb2
          · rw [if_neg hu] at hxh
            exact hnc b2 (List.mem_cons_of_mem b hb2) q hq hxh
      rw [show List.foldl (hoistStep d)
          (fs.map (fun q => if ([d, b]).isPrefixOf q then b :: q.drop 2 else q), none) bs' =
          hoistItems d
            (fs.map (fun q => if ([d, b]).isPrefixOf q then b :: q.drop 2 else q)) bs'
          from rfl, hIH]
      rw [Prod.mk.injEq]
      refine ⟨?_, rfl⟩
      rw [hoist, hoist, List.map_map]
      refine List.map_congr_left ?_
      intro q hq
      simp only [Function.comp]
      by_cases hu : ([d, b]).isPrefixOf q = true
      · obtain ⟨t, ht, hbd⟩ := hunder q hq hu
        rw [if_pos hu, ht]
        simp only [List.drop_succ_cons, List.drop_zero]
        rw [if_neg (show ¬((b :: t).head? = some d) from by simp [hbd]),
           if_pos (show (d :: b :: t).head? = some d from rfl)]
        rfl
      · rw [if_neg hu]

/-- After a successful scan and a clean write pass, validation reduces to
the empty-archive check and the entry-point check on the written tree. -/
theorem validate_write_shape (zipSize : Nat) (entries : List ZipEntry) (fc ts : Nat)
    (wfs : Fs) (hz : zipSize ≤ MAX_ZIP_SIZE)
    (hscan : scanEntries entries = .ok (fc, ts))
    (hwf : writeFold [] entries = (wfs, none)) :
    validate_and_extract zipSize true entries =
      (if fc = 0 then ⟨.error "ZIP archive is empty", wfs⟩
       else if fsExists wfs ["index.html"] then ⟨.ok ⟨fc, ts⟩, wfs⟩
       else
         match findWrapper wfs with
         | some d =>
           match hoistFold wfs d with
           | (hfs, some msg) => ⟨.error msg, hfs⟩
           | (hfs, none) => ⟨.ok ⟨fc, ts⟩, hfs⟩
         | none => ⟨.error "No index.html found in ZIP root (or first subfolder)", wfs⟩) := by
  rw [validate_and_extract, if_neg (by omega), if_neg (by simp), hscan, hwf]

/-- C7 (counterexample): an archive that passes the scan with `index.html`
absent at the root but present one level down, where the hoist nevertheless
raises: renaming `wrapper/sub` onto the existing non-empty directory
`dest/sub` fails, so validation does not succeed. -/
theorem wrapper_hoist_collision_fails :
    scanEntries
      [⟨"wrapper/index.html", 1⟩, ⟨"wrapper/sub/x.html", 1⟩, ⟨"sub/y.html", 1⟩] =
      .ok (3, 3) ∧
    (writeFold []
      [⟨"wrapper/index.html", 1⟩, ⟨"wrapper/sub/x.html", 1⟩, ⟨"sub/y.html", 1⟩]).2 =
      none ∧
    fsExists (writeFold []
      [⟨"wrapper/index.html", 1⟩, ⟨"wrapper/sub/x.html", 1⟩, ⟨"sub/y.html", 1⟩]).1
      ["index.html"] = false ∧
    fsExists (writeFold []
      [⟨"wrapper/index.html", 1⟩, ⟨"wrapper/sub/x.html", 1⟩, ⟨"sub/y.html", 1⟩]).1
      ["wrapper", "index.html"] = true ∧
    (validate_and_extract 0 true
      [⟨"wrapper/index.html", 1⟩, ⟨"wrapper/sub/x.html", 1⟩, ⟨"sub/y.html", 1⟩]).result =
      .error "OSError: rename directory onto existing path" :=
  ⟨rfl, rfl, rfl, rfl, rfl⟩

/-- C7 (amended with the collision conditions the counterexample forces):
after a successful non-empty scan and a write pass that completes without
collisions, with `index.html` absent at the destination root: if
`index.html` exists one directory level down then a wrapper folder is
found, and provided none of its items shares its name with a top-level
entry, the hoist completes as the pure re-rooting, validation succeeds, and
afterwards `index.html` and the wrapper's other contents are at the
destination root with the wrapper folder gone; if `index.html` is found
neither at the root nor one level down, validation fails with the
no-entry-point error. -/
theorem index_one_level_down :
    ∀ (zipSize : Nat) (entries : List ZipEntry) (fc ts : Nat) (wfs : Fs),
      zipSize ≤ MAX_ZIP_SIZE →
      scanEntries entries = .ok (fc, ts) →
      fc ≠ 0 →
      writeFold [] entries = (wfs, none) →
      fsExists wfs ["index.html"] = false →
      ((∃ d0, fsExists wfs [d0, "index.html"] = true) →
         ∃ d, findWrapper wfs = some d ∧
           ((∀ b ∈ childItems wfs d, ∀ q ∈ wfs, q.head? ≠ some b) →
              hoistFold wfs d = (hoist wfs d, none) ∧
              (validate_and_extract zipSize true entries).result = .ok ⟨fc, ts⟩ ∧
              (validate_and_extract zipSize true entries).destFs = hoist wfs d ∧
              fsExists (hoist wfs d) ["index.html"] = true ∧
              (∀ q, (d :: q) ∈ wfs → q ∈ hoist wfs d) ∧
              fsExists (hoist wfs d) [d] = false)) ∧
      ((∀ d, fsExists wfs [d, "index.html"] = false) →
         (validate_and_extract zipSize true entries).result =
           .error "No index.html found in ZIP root (or first subfolder)") := by
  intro zipSize entries fc ts wfs hz hscan hfc hwf hroot
  have hhyg : ∀ e ∈ entries, isSkipped e = false → pathParts e.filename ≠ [] := by
    intro e he hesk
    have hall := (scan_from_ok entries 0 0 fc ts (Nat.zero_le _)
      (by rw [← hscan]; rfl)).1 e he hesk
    exact allowed_ext_parts_ne e hall.2
  obtain ⟨hpf, hne⟩ := writeFold_pf entries [] wfs
    (fun p hp => absurd hp (List.not_mem_nil p))
    (fun q hq => absurd hq (List.not_mem_nil q)) hhyg hwf
  have hshape := validate_write_shape zipSize entries fc ts wfs hz hscan hwf
  constructor
  · rintro ⟨d0, hd0⟩
    have hd0c := hd0
    rw [fsExists] at hd0c
    obtain ⟨q, hq, hpre⟩ := List.any_eq_true.mp hd0c
    obtain ⟨rest, hrest⟩ := List.isPrefixOf_iff_prefix.mp hpre
    have hd0mem : d0 ∈ childNames wfs := by
      rw [childNames, List.mem_dedup]
      refine List.mem_filterMap.mpr ⟨q, hq, ?_⟩
      rw [← hrest]
      rfl
    have hpred : (isChildDir wfs d0 && fsExists wfs [d0, "index.html"]) = true := by
      rw [Bool.and_eq_true]
      refine ⟨?_, hd0⟩
      rw [isChildDir]
      refine List.any_eq_true.mpr ⟨q, hq, ?_⟩
      rw [← hrest]
      simp
    have hsome : (findWrapper wfs).isSome := by
      rw [findWrapper]
      exact List.find?_isSome.mpr ⟨d0, hd0mem, hpred⟩
    obtain ⟨d, hfw⟩ := Option.isSome_iff_exists.mp hsome
    refine ⟨d, hfw, ?_⟩
    intro hnc
    have hfwu := hfw
    rw [findWrapper] at hfwu
    have hpd := List.find?_some hfwu
    simp only [Bool.and_eq_true] at hpd
    have hdex : fsExists wfs [d, "index.html"] = true := hpd.2
    have hchd : isChildDir wfs d = true := hpd.1
    have hdnot : ∀ q2 ∈ wfs, q2.head? = some d →
        ∃ b ∈ childItems wfs d, q2.tail.head? = some b := by
      intro q2 hq2 hq2d
      obtain ⟨t, ht⟩ := head?_eq_some_cases hq2d
      cases t with
      | nil =>
        exfalso
        rw [isChildDir] at hchd
        obtain ⟨q3, hq3, hq3p⟩ := List.any_eq_true.mp hchd
        simp only [Bool.and_eq_true, decide_eq_true_eq] at hq3p
        have hpre3 : ([d] : List String).isPrefixOf q3 = true := by
          obtain ⟨t3, ht3⟩ := head?_eq_some_cases hq3p.1
          rw [ht3]
          exact List.isPrefixOf_iff_prefix.mpr ⟨t3, rfl⟩
        have heq3 := hpf q2 hq2 q3 hq3 (by rw [ht]; exact hpre3)
        rw [ht] at heq3
        rw [← heq3] at hq3p
        simp at hq3p
      | cons c t2 =>
        refine ⟨c, ?_, by rw [ht]; rfl⟩
        rw [childItems, List.mem_dedup]
        refine List.mem_filterMap.mpr ⟨q2, hq2, ?_⟩
        rw [ht]
        simp
    have hhf : hoistFold wfs d = (hoist wfs d, none) :=
      hoistItems_ok d (childItems wfs d) wfs hpf hne (List.nodup_dedup _) hdnot hnc
    refine ⟨hhf, ?_, ?_, ?_, ?_, ?_⟩
    · rw [hshape, if_neg hfc, if_neg (by simp [hroot])]
      simp only [hfw, hhf]
    · rw [hshape, if_neg hfc, if_neg (by simp [hroot])]
      simp only [hfw, hhf]
    · rw [fsExists] at hdex
      obtain ⟨q2, hq2, hpre2⟩ := List.any_eq_true.mp hdex
      obtain ⟨rest2, hrest2⟩ := List.isPrefixOf_iff_prefix.mp hpre2
      have hmem2 := List.mem_map_of_mem
        (fun p => if p.head? = some d then p.tail else p) hq2
      rw [← hrest2] at hmem2
      simp only [List.cons_append, List.head?_cons, if_pos rfl, List.tail_cons] at hmem2
      rw [fsExists]
      refine List.any_eq_true.mpr ⟨"index.html" :: rest2, ?_, ?_⟩
      · simpa [hoist] using hmem2
      · exact List.isPrefixOf_iff_prefix.mpr ⟨rest2, rfl⟩
    · intro q2 hq2
      have hmem2 := List.mem_map_of_mem
        (fun p => if p.head? = some d then p.tail else p) hq2
      simpa [hoist] using hmem2
    · rw [fsExists, List.any_eq_false]
      intro x hx hcontra
      rw [hoist] at hx
      obtain ⟨q2, hq2, hq2x⟩ := List.mem_map.mp hx
      have hxd : x.head? = some d := head?_of_prefix_singleton hcontra
      by_cases hh : q2.head? = some d
      · rw [if_pos hh] at hq2x
        obtain ⟨c, hc, htail⟩ := hdnot q2 hq2 hh
        rw [← hq2x] at hxd
        have hcd : c = d := Option.some.inj (htail.symm.trans hxd)
        exact hnc c hc q2 hq2 (by rw [hcd]; exact hh)
      · rw [if_neg hh] at hq2x
        rw [hq2x] at hh
        exact hh hxd
  · intro hnone
    have hfwn : findWrapper wfs = none := by
      rw [findWrapper, List.find?_eq_none]
      intro x _
      simp [hnone x]
    rw [hshape, if_neg hfc, if_neg (by simp [hroot]), hfwn]

/-- Witness for the amended hoist theorem: a zip whose two files sit inside
a single wrapper folder with no name collisions; after validation the entry
point and the stylesheet are at the destination root and the wrapper is
gone. -/
theorem index_one_level_down_witness :
    (validate_and_extract 0 true
      [⟨"wrapper/index.html", 5⟩, ⟨"wrapper/style.css", 3⟩]).result = .ok ⟨2, 8⟩ ∧
    (validate_and_extract 0 true
      [⟨"wrapper/index.html", 5⟩, ⟨"wrapper/style.css", 3⟩]).destFs =
      [["index.html"], ["style.css"]] ∧
    fsExists (validate_and_extract 0 true
      [⟨"wrapper/index.html", 5⟩, ⟨"wrapper/style.css", 3⟩]).destFs ["index.html"] = true ∧
    fsExists (validate_and_extract 0 true
      [⟨"wrapper/index.html", 5⟩, ⟨"wrapper/style.css", 3⟩]).destFs ["wrapper"] = false := by
  have h := (index_one_level_down 0
    [⟨"wrapper/index.html", 5⟩, ⟨"wrapper/style.css", 3⟩] 2 8
    [["wrapper", "index.html"], ["wrapper", "style.css"]]
    (by decide) rfl (by decide) rfl rfl).1 ⟨"wrapper", rfl⟩
  obtain ⟨d, hfw, himp⟩ := h
  have hd : d = "wrapper" := by
    have hfw2 : findWrapper [["wrapper", "index.html"], ["wrapper", "style.css"]] =
        some "wrapper" := rfl
    rw [hfw2] at hfw
    exact (Option.some.injEq _ _).mp hfw.symm
  subst hd
  have hc := himp (by decide)
  refine ⟨hc.2.1, by rw [hc.2.2.1]; rfl, ?_, ?_⟩
  · rw [hc.2.2.1]
    exact hc.2.2.2.1
  · rw [hc.2.2.1]
    exact hc.2.2.2.2.2

end Airlock
